import Mathlib

/-!
Shallow embedding of the tnfsd directory engine (directory.c) together with
the configuration constants from config.h, and proofs checking the frozen
claims about it.

Modelling conventions:
* C strings are `List Char` without interior NUL characters.
* Machine integers are `Nat`/`Int`; where the C code performs wrapping
  32-bit arithmetic the wrap is made explicit with `% 2^32` and an explicit
  unsigned-to-signed reinterpretation (`toInt32`).
* Linked-list nodes are modelled by the suffix of the list that starts at
  the node.  Two nodes of one list are pointer-equal exactly when the
  suffixes are equal (suffixes at distinct positions have distinct
  lengths), and the null pointer is the empty suffix.
* The native `DIR*` stream stored in a handle is opaque to the claims; it
  is modelled by a `Bool` recording whether it is non-null, and the value
  the OS `telldir` would produce is passed in as a parameter where needed.
-/

namespace Tnfsd

/-! ## Constants from config.h -/

def MAX_DHND_PER_CONN : Nat := 8

def MAXMSGSZ : Nat := 532

def TNFS_HEADERSZ : Nat := 4

/-- `MAXMSGSZ - TNFS_HEADERSZ - 1 = 527`. -/
def TNFS_MAX_PAYLOAD : Nat := MAXMSGSZ - TNFS_HEADERSZ - 1

def DIR_HANDLE_TIMEOUT : Nat := 300

def MAX_FILENAME_LEN : Nat := 256

def READDIRX_HEADER_SIZE : Nat := 4

def READDIRX_ENTRY_SIZE : Nat := 14

/-- Reply status bytes.  The numeric values live in errortable.h, which is
not part of the sources; only their distinctness matters to the claims. -/
inductive Status where
  | success : Status
  | eof : Status
  | ebadf : Status
  | emfile : Status
  | einval : Status
  deriving DecidableEq

/-! ## Character and C-string helpers (ctype.h / string.h semantics) -/

/-- C `tolower` in the C locale (ASCII). -/
def ctolower (c : Char) : Char :=
  if 'A' ≤ c ∧ c ≤ 'Z' then Char.ofNat (c.toNat + 32) else c

/-- C `strcmp` on NUL-free character lists: the (sign-relevant) byte
difference at the first mismatch; a shorter string compares below its
extensions. -/
def strcmp : List Char → List Char → Int
  | [], [] => 0
  | [], b :: _ => -(b.toNat : Int)
  | a :: _, [] => (a.toNat : Int)
  | a :: as, b :: bs => if a = b then strcmp as bs else (a.toNat : Int) - (b.toNat : Int)

/-- C `strcasecmp`: `strcmp` after `tolower` on both sides. -/
def strcasecmp (a b : List Char) : Int :=
  strcmp (a.map ctolower) (b.map ctolower)

/-- Whether `needle` occurs as a contiguous substring of `hay`; this is
exactly `strstr(hay, needle) != NULL`. -/
def strstr_found (hay needle : List Char) : Bool :=
  if needle.isPrefixOf hay then true
  else
    match hay with
    | [] => false
    | _ :: t => strstr_found t needle

/-- Boolean case-insensitive lexicographic order on character lists,
used to state the claim-level "ascending by name" orders. -/
def lexLe : List Char → List Char → Bool
  | [], _ => true
  | _ :: _, [] => false
  | a :: as, b :: bs => if a = b then lexLe as bs else decide (a.toNat < b.toNat)

/-! ## Path containment (validate_path and its use in tnfs_opendirx)

`validate_path` canonicalizes the composed path with `realpath` and then
checks `strstr(valpath, realroot) != NULL`.  The canonical path produced by
the OS is the function's input here. -/

/-- Embedding of `validate_path` (directory.c:225): returns 1 iff the
canonical form `valpath` of the requested path contains the canonical root
`realroot` as a substring (`strstr`). -/
def validate_path (realroot valpath : List Char) : Bool :=
  strstr_found valpath realroot

/-- Embedding of the containment step of `tnfs_opendir`/`tnfs_opendirx`
(directory.c:999-1001): if `validate_path` fails, the normalized path is
silently replaced by the configured root. -/
def resolve_client_path (root realroot canonical : List Char) : List Char :=
  if validate_path realroot canonical then canonical else root

/-! ## The glob matcher (_pattern_match, directory.c:767)

The C function fills a DP table `lookup[i][j]` = "the first `i` characters
of `src` match the first `j` characters of `pattern`".  `pm_lookup` is that
table as a recursive function; the recurrence is the one the loops compute
(cell `(0,0)` is true, row `0` propagates through `*`, column `0` is the
`memset` false, and the general cell follows the three-way branch). -/

/-- One cell of the `lookup` table of `_pattern_match`. -/
def pm_lookup (src pattern : List Char) : Nat → Nat → Bool
  | 0, 0 => true
  | 0, j + 1 =>
      if pattern.getD j ' ' = '*' then pm_lookup src pattern 0 j else false
  | _ + 1, 0 => false
  | i + 1, j + 1 =>
      if pattern.getD j ' ' = '*' then
        pm_lookup src pattern (i + 1) j || pm_lookup src pattern i (j + 1)
      else if pattern.getD j ' ' = '?'
          ∨ src.getD i ' ' = pattern.getD j ' '
          ∨ ctolower (src.getD i ' ') = ctolower (pattern.getD j ' ') then
        pm_lookup src pattern i j
      else false

/-- Embedding of `_pattern_match` (directory.c:767): empty patterns match
only the empty string, otherwise the DP table decides. -/
def _pattern_match (src pattern : List Char) : Bool :=
  if pattern.length = 0 then decide (src.length = 0)
  else pm_lookup src pattern src.length pattern.length

/-- Modelled from the spec: case-insensitive glob semantics in the spec's
words, where `*` matches any sequence of characters (including the empty
one), `?` matches exactly one arbitrary character and literal characters
match case-insensitively. -/
def spec_glob (s : List Char) : List Char → Bool
  | [] => s.isEmpty
  | d :: p =>
      if d = '*' then (List.range (s.length + 1)).any fun k => spec_glob (s.drop k) p
      else
        match s with
        | [] => false
        | c :: s => (d = '?' || decide (ctolower c = ctolower d)) && spec_glob s p

/-- Modelled from the spec: as `spec_glob`, but `?` matches exactly one
NON-SEPARATOR character, the reading the claim gives of the matcher. -/
def spec_glob_nonsep (s : List Char) : List Char → Bool
  | [] => s.isEmpty
  | d :: p =>
      if d = '*' then (List.range (s.length + 1)).any fun k => spec_glob_nonsep (s.drop k) p
      else
        match s with
        | [] => false
        | c :: s =>
            (if d = '?' then decide (c ≠ '/') else decide (ctolower c = ctolower d))
              && spec_glob_nonsep s p

/-! ## Directory entries and enumeration options

`fileinfo_t.flags` (fileinfo.h) and the `TNFS_DIROPT_*` / `TNFS_DIRSORT_*`
bytes (tnfs.h) are bit sets; their numeric layout is irrelevant to the
claims, so each is modelled as a structure of booleans, one per bit. -/

/-- The FILEINFOFLAG_DIRECTORY / HIDDEN / SPECIAL bits of a stat result. -/
structure FileFlags where
  directory : Bool
  hidden : Bool
  special : Bool
  deriving DecidableEq

/-- All-zero flags byte (the `calloc` default of a fresh node). -/
def FileFlags.zero : FileFlags := ⟨false, false, false⟩

/-- One directory entry: a readdir name decorated with its stat data
(`directory_entry` of directory.h; also used for the readdir+stat input of
`_load_directory`, whose entries the loader copies into nodes). -/
structure DirEntry where
  entrypath : List Char
  flags : FileFlags
  size : Nat
  mtime : Nat
  ctime : Nat
  deriving DecidableEq

/-- The TNFS_DIROPT_* bits of the opendirx `diropt` byte. -/
structure DirOpts where
  no_foldersfirst : Bool
  no_skiphidden : Bool
  no_skipspecial : Bool
  dir_pattern : Bool
  no_folders : Bool
  traverse : Bool
  deriving DecidableEq

/-- The TNFS_DIRSORT_* bits of the opendirx `sortopt` byte. -/
structure SortOpts where
  sort_none : Bool
  sort_case : Bool
  sort_descending : Bool
  sort_modified : Bool
  sort_size : Bool
  deriving DecidableEq

/-- Reinterpret the low 32 bits of a natural number as a signed 32-bit
value, as storing a `uint32_t` difference into an `int` does on the
targets tnfsd builds for. -/
def toInt32 (v : Nat) : Int :=
  if v % 2 ^ 32 < 2 ^ 31 then (v % 2 ^ 32 : Nat) else (v % 2 ^ 32 : Nat) - 2 ^ 32

/-- The `uint32_t` subtraction `a - b` (wrapping) read back as an `int`,
as `_mergesort_merge` computes `r` for the size and mtime keys. -/
def u32_sub_as_int (a b : Nat) : Int :=
  toInt32 (a % 2 ^ 32 + 2 ^ 32 - b % 2 ^ 32)

/-- The comparison integer `r` of `_mergesort_merge` (directory.c:1123-1146):
size key first, then mtime, then name (case-sensitive iff CASE), negated
for DESCENDING. -/
def entry_cmp (sortopts : SortOpts) (a b : DirEntry) : Int :=
  let r : Int :=
    if sortopts.sort_size then u32_sub_as_int a.size b.size
    else if sortopts.sort_modified then u32_sub_as_int a.mtime b.mtime
    else if sortopts.sort_case then strcmp a.entrypath b.entrypath
    else strcasecmp a.entrypath b.entrypath
  if sortopts.sort_descending then r * (-1) else r

/-! ## Linked-list primitives (directory.c:1052-1112) -/

/-- Embedding of `dirlist_concat`: appends `list2` to the end of `list1`. -/
def dirlist_concat (list1 list2 : List DirEntry) : List DirEntry :=
  list1 ++ list2

/-- Embedding of `dirlist_push`: the node becomes the new head. -/
def dirlist_push (dlist : List DirEntry) (node : DirEntry) : List DirEntry :=
  node :: dlist

/-- Embedding of `dirlist_get_node_at_index`: walk up to `index` nodes,
stopping early at the null pointer (the empty suffix). -/
def dirlist_get_node_at_index : List DirEntry → Nat → List DirEntry
  | dlist, 0 => dlist
  | [], _ + 1 => []
  | _ :: t, n + 1 => dirlist_get_node_at_index t n

/-- Embedding of `dirlist_get_index_for_node`: index of the first node
pointer-equal to `node`, or the length of the list when `node` does not
occur (in particular for the null node). -/
def dirlist_get_index_for_node : List DirEntry → List DirEntry → Nat
  | [], _ => 0
  | l@(_ :: t), node => if l = node then 0 else dirlist_get_index_for_node t node + 1

/-! ## Merge sort (directory.c:1114-1205) -/

/-- Embedding of `_mergesort_merge`: take from the left list while `r < 0`,
otherwise from the right. -/
def _mergesort_merge : List DirEntry → List DirEntry → SortOpts → List DirEntry
  | [], list_right, _ => list_right
  | list_left, [], _ => list_left
  | a :: ls, b :: rs, sortopts =>
      if entry_cmp sortopts a b < 0 then a :: _mergesort_merge ls (b :: rs) sortopts
      else b :: _mergesort_merge (a :: ls) rs sortopts
  termination_by l r _ => l.length + r.length

/-- Number of iterations of the slow/fast walk of `_mergesort_get_middle`:
the fast pointer advances two nodes while at least three remain. -/
def ms_steps : List DirEntry → Nat
  | [] => 0
  | [_] => 0
  | [_, _] => 0
  | _ :: _ :: c :: t => ms_steps (c :: t) + 1

theorem ms_steps_lt (l : List DirEntry) (h : 2 ≤ l.length) : ms_steps l + 1 < l.length := by
  match l with
  | [] => simp at h
  | [_] => simp at h
  | [_, _] => simp [ms_steps]
  | [_, _, _] => simp [ms_steps]
  | a :: b :: c :: d :: t =>
      have ih := ms_steps_lt (c :: d :: t) (by simp)
      simp only [ms_steps, List.length_cons] at ih ⊢
      omega
  termination_by l.length

/-- Embedding of `_mergesort`: lists of length ≤ 1 are returned as they
are; otherwise the list is cut after the middle node found by the
slow/fast walk (`ms_steps l + 1` elements on the left) and the sorted
halves are merged. -/
def _mergesort (sortopts : SortOpts) (l : List DirEntry) : List DirEntry :=
  if h : l.length ≤ 1 then l
  else
    _mergesort_merge
      (_mergesort sortopts (l.take (ms_steps l + 1)))
      (_mergesort sortopts (l.drop (ms_steps l + 1)))
      sortopts
  termination_by l.length
  decreasing_by
    · have := ms_steps_lt l (by omega)
      simpa [List.length_take] using by omega
    · have := ms_steps_lt l (by omega)
      simp [List.length_drop]
      omega

/-- Embedding of `dirlist_sort`. -/
def dirlist_sort (sortopts : SortOpts) (l : List DirEntry) : List DirEntry :=
  _mergesort sortopts l

/-! ## Loading a directory (_load_directory, directory.c:832) -/

/-- The `pattern != NULL && _pattern_match(...) == false` test of the
load loop. -/
def pattern_rejects (pattern : Option (List Char)) (name : List Char) : Bool :=
  match pattern with
  | some p => !_pattern_match name p
  | none => false

/-- The per-entry filter of the load loop: pattern (applied to
non-directories, and to directories too when DIR_PATTERN is set), hidden,
special and NO_FOLDERS checks, in the code's order. -/
def entry_passes (diropts : DirOpts) (pattern : Option (List Char)) (e : DirEntry) : Bool :=
  if (diropts.dir_pattern || !e.flags.directory)
      && pattern_rejects pattern e.entrypath then false
  else if !diropts.no_skiphidden && e.flags.hidden then false
  else if !diropts.no_skipspecial && e.flags.special then false
  else if diropts.no_folders && e.flags.directory then false
  else true

/-- The node built for an accepted entry: name copied with
`strlcpy(..., MAX_FILENAME_LEN)` (truncating to 255 characters) and the
flags byte copied only for directories (files keep the `calloc` zero). -/
def load_entry_node (e : DirEntry) : DirEntry :=
  { entrypath := e.entrypath.take (MAX_FILENAME_LEN - 1)
    flags := if e.flags.directory then e.flags else FileFlags.zero
    size := e.size
    mtime := e.mtime
    ctime := e.ctime }

/-- The readdir loop of `_load_directory`: accepted entries are pushed on
the front of `list_dirs` (directories, unless NO_FOLDERSFIRST) or
`list_files`; the loop breaks once `entrycount` reaches a non-zero
`maxresults`.  Returns `(list_dirs, list_files, entrycount)`. -/
def load_loop (diropts : DirOpts) (pattern : Option (List Char)) (maxresults : Nat) :
    List DirEntry → List DirEntry → List DirEntry → Nat →
      List DirEntry × List DirEntry × Nat
  | [], list_dirs, list_files, entrycount => (list_dirs, list_files, entrycount)
  | e :: rest, list_dirs, list_files, entrycount =>
      if entry_passes diropts pattern e then
        let node := load_entry_node e
        let to_dirs := e.flags.directory && !diropts.no_foldersfirst
        let list_dirs' := if to_dirs then dirlist_push list_dirs node else list_dirs
        let list_files' := if to_dirs then list_files else dirlist_push list_files node
        if maxresults > 0 ∧ maxresults ≤ entrycount + 1 then
          (list_dirs', list_files', entrycount + 1)
        else load_loop diropts pattern maxresults rest list_dirs' list_files' (entrycount + 1)
      else load_loop diropts pattern maxresults rest list_dirs list_files entrycount

/-- Embedding of `_load_directory` on the readdir+stat view of the
directory: `entries` lists, in readdir order, the entries for which
`get_fileinfo` succeeds (entries whose stat fails are skipped by the code
and are not modelled).  Returns the materialized entry list; the cursor is
set to its head and `entry_count` to the count of accepted entries. -/
def _load_directory (entries : List DirEntry) (diropts : DirOpts) (sortopts : SortOpts)
    (maxresults : Nat) (pattern : Option (List Char)) : List DirEntry × Nat :=
  let (list_dirs, list_files, entrycount) := load_loop diropts pattern maxresults entries [] [] 0
  let list_dirs' := if !sortopts.sort_none then dirlist_sort sortopts list_dirs else list_dirs
  let list_files' := if !sortopts.sort_none then dirlist_sort sortopts list_files else list_files
  (dirlist_concat list_dirs' list_files', entrycount)

/-- Modelled from the spec: the claim-level order selected by `sortopt` —
by size for SIZE, else by mtime for MODIFIED, else by name
(case-sensitively iff CASE), reversed for DESCENDING. -/
def spec_key_le (sortopts : SortOpts) (a b : DirEntry) : Bool :=
  let le :=
    if sortopts.sort_size then decide (a.size ≤ b.size)
    else if sortopts.sort_modified then decide (a.mtime ≤ b.mtime)
    else if sortopts.sort_case then lexLe a.entrypath b.entrypath
    else lexLe (a.entrypath.map ctolower) (b.entrypath.map ctolower)
  let ge :=
    if sortopts.sort_size then decide (b.size ≤ a.size)
    else if sortopts.sort_modified then decide (b.mtime ≤ a.mtime)
    else if sortopts.sort_case then lexLe b.entrypath a.entrypath
    else lexLe (b.entrypath.map ctolower) (a.entrypath.map ctolower)
  if sortopts.sort_descending then ge else le

/-! ## Directory handles and their command handlers

One slot of `Session.dhandles`.  The native `DIR*` is modelled by the
boolean `handle` (non-null or not); `current_entry` is the suffix of
`entry_list` the cursor points at (the node model described above). -/

structure dir_handle where
  open_flag : Bool
  loaded : Bool
  handle : Bool
  open_at : Nat
  path : List Char
  pattern : List Char
  diropt : DirOpts
  sortopt : SortOpts
  entry_list : List DirEntry
  current_entry : List DirEntry
  entry_count : Nat
  deriving DecidableEq

/-- A reply sent by a directory command handler: either a bare status with
empty body, a telldir position, or a readdirx data reply (count byte,
DIRSTATUS_EOF bit, dirpos word, packed entries). -/
inductive Reply where
  | bare (status : Status) : Reply
  | pos (status : Status) (position : Nat) : Reply
  | dirdata (status : Status) (count : Nat) (eof : Bool) (dirpos : Nat)
      (entries : List DirEntry) : Reply
  deriving DecidableEq

/-- Embedding of `tnfs_closedir` (directory.c:489): the guard is the
code's `datasz != 1 || handle > MAX_DHND_PER_CONN || !open`; on success
only the open flag is cleared. -/
def tnfs_closedir (dh : dir_handle) (datasz h : Nat) : Reply × dir_handle :=
  if datasz ≠ 1 ∨ h > MAX_DHND_PER_CONN ∨ dh.open_flag = false then (.bare .ebadf, dh)
  else (.bare .success, { dh with open_flag := false })

/-- Embedding of `tnfs_seekdir` (directory.c:558).  For an entry-list
backed handle the cursor becomes the node at index `pos`; otherwise the
native `seekdir` is invoked on the opaque stream (no modelled effect). -/
def tnfs_seekdir (dh : dir_handle) (datasz h pos : Nat) : Reply × dir_handle :=
  if datasz ≠ 5 ∨ h > MAX_DHND_PER_CONN ∨ dh.open_flag = false
      ∨ (dh.entry_list = [] ∧ dh.handle = false) then (.bare .ebadf, dh)
  else if dh.entry_list = [] then (.bare .success, dh)
  else (.bare .success,
    { dh with current_entry := dirlist_get_node_at_index dh.entry_list pos })

/-- Embedding of `tnfs_telldir` (directory.c:602).  For an entry-list
backed handle the position is the index of the cursor node; for a native
handle it is whatever the OS `telldir` returns, passed in as
`native_pos`. -/
def tnfs_telldir (dh : dir_handle) (datasz h native_pos : Nat) : Reply :=
  if datasz ≠ 1 ∨ h > MAX_DHND_PER_CONN ∨ dh.open_flag = false
      ∨ (dh.entry_list = [] ∧ dh.handle = false) then .bare .ebadf
  else if dh.entry_list = [] then .pos .success native_pos
  else .pos .success (dirlist_get_index_for_node dh.entry_list dh.current_entry)

/-! ## READDIRX (tnfs_readdirx, directory.c:638) -/

/-- The pack loop of `tnfs_readdirx`: starting from the cursor, stop when
a non-zero requested count is reached, or when the next entry would push
`total_size` past `TNFS_MAX_PAYLOAD` (the size of `reply`), or when the
cursor runs out.  Returns the packed entries and the final cursor. -/
def readdirx_loop (req_count : Nat) :
    List DirEntry → Nat → Nat → List DirEntry × List DirEntry
  | [], _, _ => ([], [])
  | e :: rest, count_sent, total_size =>
      if req_count ≠ 0 ∧ req_count ≤ count_sent then ([], e :: rest)
      else if TNFS_MAX_PAYLOAD < total_size + READDIRX_ENTRY_SIZE + e.entrypath.length then
        ([], e :: rest)
      else
        let r := readdirx_loop req_count rest (count_sent + 1)
          (total_size + READDIRX_ENTRY_SIZE + e.entrypath.length)
        (e :: r.1, r.2)

/-- The bytes a list of packed entries occupies in the reply body
(each entry costs `READDIRX_ENTRY_SIZE` plus its name). -/
def entries_size : List DirEntry → Nat
  | [] => 0
  | e :: es => READDIRX_ENTRY_SIZE + e.entrypath.length + entries_size es

/-- The total reply size `total_size` reaches after packing `es`:
the 4-byte header plus the entry bytes. -/
def reply_size (es : List DirEntry) : Nat :=
  READDIRX_HEADER_SIZE + entries_size es

/-- Embedding of `tnfs_readdirx`: the list of replies sent for one
request, in order, together with the updated handle.  The reply bytes at
the `dirpos` offset are written only when at least one entry is packed;
`junk` stands for the uninitialized stack bytes read back otherwise.
Note the guard checks only the datagram size and the handle byte; and the
already-at-end branch sends its EOF reply and then falls through to the
pack loop, so a second (success) reply is sent for the same request. -/
def tnfs_readdirx (dh : dir_handle) (datasz h req_count junk : Nat) :
    List Reply × dir_handle :=
  if datasz ≠ 2 ∨ h > MAX_DHND_PER_CONN then ([.bare .ebadf], dh)
  else
    let eof_replies : List Reply :=
      if dh.current_entry = [] then [.bare .eof] else []
    let packed := readdirx_loop req_count dh.current_entry 0 READDIRX_HEADER_SIZE
    let dirpos :=
      if packed.1.length = 0 then junk
      else dirlist_get_index_for_node dh.entry_list dh.current_entry
    (eof_replies
        ++ [.dirdata .success packed.1.length (decide (packed.2 = [])) dirpos packed.1],
      { dh with current_entry := packed.2 })

/-! ## Handle allocation (_tnfs_find_free_dir_handle, directory.c:1252) -/

/-- Embedding of `_tnfs_free_dir_handle`: closes the native stream, clears
path, pattern and the entry list; `open_flag`, `open_at`, `diropt` and
`sortopt` are left as they were. -/
def _tnfs_free_dir_handle (dh : dir_handle) : dir_handle :=
  { dh with
    handle := false
    path := []
    pattern := []
    entry_list := []
    current_entry := []
    entry_count := 0
    loaded := false }

/-- Embedding of `_tnfs_init_dhandle`: records path, pattern (empty for
NULL), the option bytes, and the allocation time. -/
def _tnfs_init_dhandle (dh : dir_handle) (path : List Char) (diropt : DirOpts)
    (sortopt : SortOpts) (pattern : Option (List Char)) (now : Nat) : dir_handle :=
  { dh with
    path := path
    pattern := pattern.getD []
    diropt := diropt
    sortopt := sortopt
    open_at := now }

/-- The expiry sweep at the top of `_tnfs_find_free_dir_handle`: every
slot that is not open but is loaded and older than `DIR_HANDLE_TIMEOUT`
is freed. -/
def sweep_handles (now : Nat) (dhandles : List dir_handle) : List dir_handle :=
  dhandles.map fun dh =>
    if !dh.open_flag && dh.loaded && decide (dh.open_at + DIR_HANDLE_TIMEOUT < now) then
      _tnfs_free_dir_handle dh
    else dh

/-- The reuse test of allocation attempt 1 (directory.c:1279-1283): the
slot is loaded and path, option bytes and pattern all match.  (When the
request carries no pattern but the slot stores one the C code calls
`strncmp` with a NULL pointer; that unreachable-by-intent case is
modelled as no match.) -/
def reuse_match (path : List Char) (diropt : DirOpts) (sortopt : SortOpts)
    (pattern : Option (List Char)) (dh : dir_handle) : Bool :=
  dh.loaded && decide (dh.path = path) && decide (dh.diropt = diropt)
    && decide (dh.sortopt = sortopt)
    && (match pattern with
        | none => decide (dh.pattern = [])
        | some p => decide (dh.pattern = p))

/-- Replace the element at index `i` (the in-place slot update of the C
loops). -/
def update_at (l : List dir_handle) (i : Nat) (f : dir_handle → dir_handle) :
    List dir_handle :=
  l.take i ++ (match l.drop i with
    | [] => []
    | x :: t => f x :: t)

/-- Index of the first slot satisfying `p` (the `for` loops of
`_tnfs_find_free_dir_handle` return the first hit). -/
def find_first (p : dir_handle → Bool) : List dir_handle → Option Nat
  | [] => none
  | dh :: rest => if p dh then some 0 else (find_first p rest).map (· + 1)

/-- Embedding of `_tnfs_find_free_dir_handle`: sweep expired handles,
then try (1) reuse of a loaded slot with matching parameters when
requested, (2) the first slot neither open nor loaded, (3) the first slot
not open, freeing it first if loaded; `none` when every slot is open (the
caller replies EMFILE). -/
def _tnfs_find_free_dir_handle (now : Nat) (dhandles : List dir_handle)
    (path : List Char) (diropt : DirOpts) (sortopt : SortOpts)
    (pattern : Option (List Char)) (reuse : Bool) :
    Option Nat × List dir_handle :=
  let l1 := sweep_handles now dhandles
  match (if reuse then find_first (reuse_match path diropt sortopt pattern) l1 else none) with
  | some i => (some i, update_at l1 i fun dh => { dh with current_entry := dh.entry_list })
  | none =>
    match find_first (fun dh => !dh.open_flag && !dh.loaded) l1 with
    | some i =>
        (some i, update_at l1 i fun dh => _tnfs_init_dhandle dh path diropt sortopt pattern now)
    | none =>
      match find_first (fun dh => !dh.open_flag) l1 with
      | some i =>
          (some i, update_at l1 i fun dh =>
            _tnfs_init_dhandle (if dh.loaded then _tnfs_free_dir_handle dh else dh)
              path diropt sortopt pattern now)
      | none => (none, l1)

/-! ## Concrete fixtures used by closed theorems and witnesses -/

/-- A plain file entry with a one-character name. -/
def entry_a : DirEntry := ⟨['a'], FileFlags.zero, 10, 20, 30⟩

/-- A second plain file entry. -/
def entry_b : DirEntry := ⟨['b'], FileFlags.zero, 11, 21, 31⟩

/-- A directory entry. -/
def entry_sub : DirEntry := ⟨['s'], ⟨true, false, false⟩, 0, 5, 5⟩

/-- An open, loaded, entry-list backed handle over `[entry_a, entry_b]`. -/
def handle_ab : dir_handle :=
  { open_flag := true
    loaded := true
    handle := true
    open_at := 0
    path := ['/', 'r']
    pattern := []
    diropt := ⟨false, false, false, false, false, false⟩
    sortopt := ⟨false, false, false, false, false⟩
    entry_list := [entry_a, entry_b]
    current_entry := [entry_a, entry_b]
    entry_count := 2 }

/-- `handle_ab` with its cursor already past the end of the list. -/
def handle_at_end : dir_handle :=
  { handle_ab with current_entry := [] }

/-- A slot that is OPEN and loaded for path `/r` with default options and
no pattern (so it matches a reuse request for those parameters). -/
def slot_open_loaded : dir_handle :=
  { handle_ab with open_at := 1000 }

/-- A completely fresh slot: neither open nor loaded. -/
def slot_free : dir_handle :=
  { open_flag := false
    loaded := false
    handle := false
    open_at := 0
    path := []
    pattern := []
    diropt := ⟨false, false, false, false, false, false⟩
    sortopt := ⟨false, false, false, false, false⟩
    entry_list := []
    current_entry := []
    entry_count := 0 }

/-- A file whose size is zero, listed first by readdir. -/
def entry_size_zero : DirEntry := ⟨['b'], FileFlags.zero, 0, 0, 0⟩

/-- A file of size 2^31 bytes (a legal `uint32_t` size), listed second. -/
def entry_size_big : DirEntry := ⟨['a'], FileFlags.zero, 2 ^ 31, 0, 0⟩

/-- The all-clear diropt byte. -/
def diropts_none : DirOpts := ⟨false, false, false, false, false, false⟩

/-- The sortopt byte with only the SIZE bit set. -/
def sort_by_size : SortOpts := ⟨false, false, false, false, true⟩

/-- The all-clear sortopt byte (default name sort). -/
def sort_default : SortOpts := ⟨false, false, false, false, false⟩

/-! # Theorems -/

/-! ## Cursor arithmetic on the node model -/

theorem dirlist_get_node_at_index_eq_drop :
    ∀ (l : List DirEntry) (n : Nat), dirlist_get_node_at_index l n = l.drop n
  | l, 0 => by simp [dirlist_get_node_at_index]
  | [], _ + 1 => rfl
  | _ :: t, n + 1 => dirlist_get_node_at_index_eq_drop t n

theorem dirlist_get_index_for_node_drop :
    ∀ (l : List DirEntry) (n : Nat),
      dirlist_get_index_for_node l (l.drop n) = min n l.length
  | [], n => by simp [dirlist_get_index_for_node]
  | _ :: _, 0 => by simp [dirlist_get_index_for_node]
  | x :: t, n + 1 => by
      have hne : x :: t ≠ t.drop n := by
        intro heq
        have := congrArg List.length heq
        simp [List.length_drop] at this
        omega
      simp only [List.drop_succ_cons, dirlist_get_index_for_node, if_neg hne,
        dirlist_get_index_for_node_drop t n, List.length_cons]
      omega

/-- C7: on a loaded, entry-list-backed open directory handle, a seekdir to
any valid position `n < entry_count` followed by a telldir succeeds and
reports exactly `n`: positions are the zero-based index into the
materialized list. -/
theorem claim_C7_seekdir_then_telldir (dh : dir_handle) (h n native_pos : Nat)
    (hopen : dh.open_flag = true) (hh : h ≤ MAX_DHND_PER_CONN)
    (hcount : dh.entry_count = dh.entry_list.length)
    (hn : n < dh.entry_count) :
    (tnfs_seekdir dh 5 h n).1 = .bare .success ∧
    tnfs_telldir (tnfs_seekdir dh 5 h n).2 1 h native_pos = .pos .success n := by
  have hlen : n < dh.entry_list.length := hcount ▸ hn
  have hne : dh.entry_list ≠ [] := by
    intro hnil
    rw [hnil] at hlen
    simp at hlen
  have hseek : tnfs_seekdir dh 5 h n =
      (.bare .success, { dh with current_entry := dirlist_get_node_at_index dh.entry_list n }) := by
    unfold tnfs_seekdir
    rw [if_neg, if_neg hne]
    rintro (h1 | h2 | h3 | ⟨h4, _⟩)
    · exact h1 rfl
    · omega
    · rw [hopen] at h3; simp at h3
    · exact hne h4
  rw [hseek]
  refine ⟨rfl, ?_⟩
  unfold tnfs_telldir
  rw [if_neg, if_neg]
  · show Reply.pos Status.success
        (dirlist_get_index_for_node dh.entry_list (dirlist_get_node_at_index dh.entry_list n)) =
      Reply.pos Status.success n
    rw [dirlist_get_node_at_index_eq_drop, dirlist_get_index_for_node_drop]
    congr 1
    omega
  · exact hne
  · rintro (h1 | h2 | h3 | ⟨h4, _⟩)
    · exact h1 rfl
    · omega
    · have h5 : dh.open_flag = false := h3
      rw [hopen] at h5
      simp at h5
    · exact hne h4

/-- Witness for C7 at a concrete handle: seek to 1, tell returns 1. -/
theorem claim_C7_witness :
    handle_ab.open_flag = true ∧ handle_ab.entry_count = handle_ab.entry_list.length ∧
    1 < handle_ab.entry_count ∧
    tnfs_telldir (tnfs_seekdir handle_ab 5 0 1).2 1 0 99 = .pos .success 1 :=
  ⟨rfl, by decide, by decide,
    (claim_C7_seekdir_then_telldir handle_ab 0 1 99 rfl (by decide) (by decide) (by decide)).2⟩

/-- C10: on a loaded, entry-list-backed open directory handle, a seekdir
to any position `n ≥ entry_count` parks the cursor on the null node, and a
subsequent telldir succeeds and returns exactly `entry_count`, because the
index lookup for a node that does not occur in the list returns the length
of the list. -/
theorem claim_C10_seekdir_past_end (dh : dir_handle) (h n native_pos : Nat)
    (hopen : dh.open_flag = true) (hh : h ≤ MAX_DHND_PER_CONN)
    (hne : dh.entry_list ≠ [])
    (hcount : dh.entry_count = dh.entry_list.length)
    (hn : dh.entry_count ≤ n) :
    (tnfs_seekdir dh 5 h n).2.current_entry = [] ∧
    tnfs_telldir (tnfs_seekdir dh 5 h n).2 1 h native_pos = .pos .success dh.entry_count := by
  have hlen : dh.entry_list.length ≤ n := hcount ▸ hn
  have hseek : tnfs_seekdir dh 5 h n =
      (.bare .success, { dh with current_entry := dirlist_get_node_at_index dh.entry_list n }) := by
    unfold tnfs_seekdir
    rw [if_neg, if_neg hne]
    rintro (h1 | h2 | h3 | ⟨h4, _⟩)
    · exact h1 rfl
    · omega
    · rw [hopen] at h3; simp at h3
    · exact hne h4
  rw [hseek]
  have hcur : dirlist_get_node_at_index dh.entry_list n = [] := by
    rw [dirlist_get_node_at_index_eq_drop]
    exact List.drop_eq_nil_of_le hlen
  refine ⟨hcur, ?_⟩
  unfold tnfs_telldir
  rw [if_neg, if_neg]
  · show Reply.pos Status.success
        (dirlist_get_index_for_node dh.entry_list (dirlist_get_node_at_index dh.entry_list n)) =
      Reply.pos Status.success dh.entry_count
    rw [dirlist_get_node_at_index_eq_drop, dirlist_get_index_for_node_drop, hcount]
    congr 1
    omega
  · exact hne
  · rintro (h1 | h2 | h3 | ⟨h4, _⟩)
    · exact h1 rfl
    · omega
    · have h5 : dh.open_flag = false := h3
      rw [hopen] at h5
      simp at h5
    · exact hne h4

/-- Witness for C10: seeking `handle_ab` to 5 ≥ 2 then telling returns 2. -/
theorem claim_C10_witness :
    handle_ab.entry_list ≠ [] ∧ handle_ab.entry_count ≤ 5 ∧
    (tnfs_seekdir handle_ab 5 0 5).2.current_entry = [] ∧
    tnfs_telldir (tnfs_seekdir handle_ab 5 0 5).2 1 0 99 = .pos .success handle_ab.entry_count :=
  ⟨by decide, by decide,
    (claim_C10_seekdir_past_end handle_ab 0 5 99 rfl (by decide) (by decide) (by decide)
      (by decide)).1,
    (claim_C10_seekdir_past_end handle_ab 0 5 99 rfl (by decide) (by decide) (by decide)
      (by decide)).2⟩

/-! ## C1: path containment -/

/-- C1: the claim says that after canonicalization a path that does not
have the root as a prefix is replaced with the root, so every resolved
path stays inside the root.  The code's `validate_path` tests
`strstr(valpath, realroot) != NULL` instead.  With the root canonicalized
to `/srv/tnfs`, a request whose composed path canonicalizes to
`/tmp/srv/tnfs` (e.g. client path `../../tmp/srv/tnfs`) passes the check
— the root appears as an interior substring — and is used unchanged by
`tnfs_opendirx`, although the root is not a prefix of it: the resolved
path escapes the root, contradicting the claim (and the code's own
comment "validates the path is inside our root dir"). -/
theorem claim_C1_substring_check_escapes_root :
    validate_path "/srv/tnfs".data "/tmp/srv/tnfs".data = true ∧
    resolve_client_path "/srv/tnfs".data "/srv/tnfs".data "/tmp/srv/tnfs".data =
      "/tmp/srv/tnfs".data ∧
    "/srv/tnfs".data.isPrefixOf
      (resolve_client_path "/srv/tnfs".data "/srv/tnfs".data "/tmp/srv/tnfs".data) = false := by
  refine ⟨by decide, by decide, by decide⟩

/-! ## C2: the handle-byte bound check -/

/-- C2: the claim (and the spec) requires every handle byte
`h ≥ MAX_DHND_PER_CONN` to be rejected with EBADF before the dhandles
array is indexed.  The code of `tnfs_readdirx`, `tnfs_closedir`,
`tnfs_seekdir` and `tnfs_telldir` tests `h > MAX_DHND_PER_CONN`, so the
byte `h = 8 = MAX_DHND_PER_CONN` passes the guard and the handler runs on
`dhandles[8]`, one past the 8-slot array (`handle_ab` stands for whatever
memory sits there): an out-of-bounds access instead of the required EBADF
reply. -/
theorem claim_C2_bound_check_off_by_one :
    (tnfs_readdirx handle_ab 2 8 1 0).1 ≠ [Reply.bare .ebadf] ∧
    (tnfs_closedir handle_ab 1 8).1 = Reply.bare .success ∧
    (tnfs_seekdir handle_ab 5 8 0).1 = Reply.bare .success ∧
    tnfs_telldir handle_ab 1 8 99 = Reply.pos .success 0 ∧
    ¬ 8 < MAX_DHND_PER_CONN := by
  refine ⟨by decide, by decide, by decide, by decide, by decide⟩

/-! ## C3: readdirx on an exhausted cursor -/

/-- C3: the claim says a readdirx on a handle whose cursor is already at
the end sends exactly one reply, with status EOF and an empty body.  The
code sends that EOF reply but is missing the early `return`: it falls
through into the pack loop and sends a second, SUCCESS-status reply for
the same request (count 0, DIRSTATUS_EOF set, uninitialized dirpos
bytes, here 0). -/
theorem claim_C3_eof_sends_two_replies :
    (tnfs_readdirx handle_at_end 2 0 0 0).1 =
      [Reply.bare .eof, Reply.dirdata .success 0 true 0 []] := by
  decide

/-! ## C9: closedir only clears the open flag -/

/-- C9: closing a valid open directory handle succeeds and changes only
the open flag; the materialized entry list, the cursor, the entry count,
the loaded flag, path, pattern and the two option bytes are untouched, so
the slot satisfies the reuse test of a later reopen with identical
`(path, diropt, sortopt, pattern)` exactly as before. -/
theorem claim_C9_closedir_frame (dh : dir_handle) (h : Nat)
    (hh : h ≤ MAX_DHND_PER_CONN) (hopen : dh.open_flag = true) :
    (tnfs_closedir dh 1 h).1 = .bare .success ∧
    (tnfs_closedir dh 1 h).2.open_flag = false ∧
    (tnfs_closedir dh 1 h).2.entry_list = dh.entry_list ∧
    (tnfs_closedir dh 1 h).2.current_entry = dh.current_entry ∧
    (tnfs_closedir dh 1 h).2.entry_count = dh.entry_count ∧
    (tnfs_closedir dh 1 h).2.loaded = dh.loaded ∧
    (tnfs_closedir dh 1 h).2.path = dh.path ∧
    (tnfs_closedir dh 1 h).2.pattern = dh.pattern ∧
    (tnfs_closedir dh 1 h).2.diropt = dh.diropt ∧
    (tnfs_closedir dh 1 h).2.sortopt = dh.sortopt ∧
    (tnfs_closedir dh 1 h).2.open_at = dh.open_at ∧
    (tnfs_closedir dh 1 h).2.handle = dh.handle ∧
    (∀ (p : List Char) (d : DirOpts) (so : SortOpts) (pat : Option (List Char)),
      reuse_match p d so pat (tnfs_closedir dh 1 h).2 = reuse_match p d so pat dh) := by
  have hres : tnfs_closedir dh 1 h = (.bare .success, { dh with open_flag := false }) := by
    unfold tnfs_closedir
    rw [if_neg]
    rintro (h1 | h2 | h3)
    · exact h1 rfl
    · omega
    · rw [hopen] at h3; simp at h3
  rw [hres]
  refine ⟨rfl, rfl, rfl, rfl, rfl, rfl, rfl, rfl, rfl, rfl, rfl, rfl, ?_⟩
  intro p d so pat
  rfl

/-- Witness for C9: closing `handle_ab` keeps its list and stays
reuse-eligible for its own parameters. -/
theorem claim_C9_witness :
    handle_ab.open_flag = true ∧
    (tnfs_closedir handle_ab 1 0).2.entry_list = handle_ab.entry_list ∧
    reuse_match handle_ab.path handle_ab.diropt handle_ab.sortopt none
        (tnfs_closedir handle_ab 1 0).2 =
      reuse_match handle_ab.path handle_ab.diropt handle_ab.sortopt none handle_ab :=
  ⟨rfl,
    (claim_C9_closedir_frame handle_ab 0 (by decide) rfl).2.2.1,
    (claim_C9_closedir_frame handle_ab 0 (by decide) rfl).2.2.2.2.2.2.2.2.2.2.2.2
      handle_ab.path handle_ab.diropt handle_ab.sortopt none⟩

/-! ## C4: the readdirx pack loop -/

/-- Behaviour of the pack loop: it packs a prefix of the remaining
entries; it never exceeds a non-zero requested count or the payload
budget; and it only stops early when the next entry would not fit. -/
theorem readdirx_loop_spec (rc : Nat) :
    ∀ (es : List DirEntry) (cs ts : Nat),
      (readdirx_loop rc es cs ts).1 = es.take (readdirx_loop rc es cs ts).1.length ∧
      (readdirx_loop rc es cs ts).2 = es.drop (readdirx_loop rc es cs ts).1.length ∧
      (rc ≠ 0 → (readdirx_loop rc es cs ts).1.length ≤ rc - cs) ∧
      (ts ≤ TNFS_MAX_PAYLOAD →
        ts + entries_size (readdirx_loop rc es cs ts).1 ≤ TNFS_MAX_PAYLOAD) ∧
      (∀ y ys, (readdirx_loop rc es cs ts).2 = y :: ys →
        (rc = 0 ∨ cs + (readdirx_loop rc es cs ts).1.length < rc) →
        TNFS_MAX_PAYLOAD <
          ts + entries_size (readdirx_loop rc es cs ts).1
            + READDIRX_ENTRY_SIZE + y.entrypath.length)
  | [], cs, ts => by
      refine ⟨rfl, rfl, fun _ => by simp [readdirx_loop], fun hts => ?_, fun y ys hy _ => ?_⟩
      · simpa [readdirx_loop, entries_size] using hts
      · simp [readdirx_loop] at hy
  | e :: rest, cs, ts => by
      by_cases hstop1 : rc ≠ 0 ∧ rc ≤ cs
      · have hres : readdirx_loop rc (e :: rest) cs ts = ([], e :: rest) := by
          rw [readdirx_loop, if_pos hstop1]
        rw [hres]
        refine ⟨rfl, rfl, fun _ => by simp, fun hts => by simpa [entries_size] using hts,
          fun y ys hy hlt => ?_⟩
        simp only [List.length_nil, Nat.add_zero] at hlt
        omega
      · by_cases hstop2 :
          TNFS_MAX_PAYLOAD < ts + READDIRX_ENTRY_SIZE + e.entrypath.length
        · have hres : readdirx_loop rc (e :: rest) cs ts = ([], e :: rest) := by
            rw [readdirx_loop, if_neg hstop1, if_pos hstop2]
          rw [hres]
          refine ⟨rfl, rfl, fun _ => by simp, fun hts => by simpa [entries_size] using hts,
            fun y ys hy _ => ?_⟩
          have hye : y = e := by
            rw [List.cons.injEq] at hy
            exact hy.1.symm
          rw [hye]
          simp only [entries_size, Nat.add_zero]
          omega
        · have ih := readdirx_loop_spec rc rest (cs + 1)
            (ts + READDIRX_ENTRY_SIZE + e.entrypath.length)
          have hres : readdirx_loop rc (e :: rest) cs ts =
              (e :: (readdirx_loop rc rest (cs + 1)
                  (ts + READDIRX_ENTRY_SIZE + e.entrypath.length)).1,
                (readdirx_loop rc rest (cs + 1)
                  (ts + READDIRX_ENTRY_SIZE + e.entrypath.length)).2) := by
            rw [readdirx_loop, if_neg hstop1, if_neg hstop2]
          rw [hres]
          obtain ⟨ih1, ih2, ih3, ih4, ih5⟩ := ih
          refine ⟨?_, ?_, ?_, ?_, ?_⟩
          · simp only [List.length_cons, List.take_succ_cons]
            exact congrArg (e :: ·) ih1
          · simp only [List.length_cons, List.drop_succ_cons]
            exact ih2
          · intro hrc
            have := ih3 hrc
            simp only [List.length_cons]
            omega
          · intro hts
            have hfit : ts + READDIRX_ENTRY_SIZE + e.entrypath.length ≤ TNFS_MAX_PAYLOAD := by
              omega
            have := ih4 hfit
            simp only [entries_size]
            omega
          · intro y ys hy hlt
            simp only [List.length_cons] at hlt
            have hlt' : rc = 0 ∨
                cs + 1 + (readdirx_loop rc rest (cs + 1)
                  (ts + READDIRX_ENTRY_SIZE + e.entrypath.length)).1.length < rc := by
              omega
            have := ih5 y ys hy hlt'
            simp only [entries_size]
            omega

theorem entries_size_cons (e : DirEntry) (es : List DirEntry) :
    entries_size (e :: es) = READDIRX_ENTRY_SIZE + e.entrypath.length + entries_size es := rfl

theorem entries_size_append_one (es : List DirEntry) (y : DirEntry) :
    entries_size (es ++ [y]) =
      entries_size es + READDIRX_ENTRY_SIZE + y.entrypath.length := by
  induction es with
  | nil => simp [entries_size]
  | cons a as ihp =>
      rw [List.cons_append, entries_size_cons, ihp, entries_size_cons]
      omega

/-- C4: a readdirx on a loaded handle whose cursor sits at index `i` of
the entry list (not at the end) sends exactly one SUCCESS reply that
packs entries from the cursor on in list order; the reply's `dirpos` is
`i` (what telldir would have returned before the batch), its
DIRSTATUS_EOF bit is set exactly when the cursor is exhausted afterwards,
and the number `n` of packed entries is positive, respects a non-zero
`req_count`, keeps the reply within `TNFS_MAX_PAYLOAD`, and is maximal:
if the loop stopped before the count or the list ran out, one more entry
would overflow the payload. -/
theorem claim_C4_readdirx_batch (dh : dir_handle) (h rc i junk : Nat)
    (hh : h ≤ MAX_DHND_PER_CONN)
    (hcur : dh.current_entry = dirlist_get_node_at_index dh.entry_list i)
    (hi : i < dh.entry_list.length)
    (hnames : ∀ e ∈ dh.entry_list, e.entrypath.length ≤ MAX_FILENAME_LEN - 1) :
    ∃ n, 0 < n ∧
      (tnfs_readdirx dh 2 h rc junk).1 =
        [Reply.dirdata .success n (decide (i + n = dh.entry_list.length)) i
          ((dh.entry_list.drop i).take n)] ∧
      (tnfs_readdirx dh 2 h rc junk).2.current_entry = (dh.entry_list.drop i).drop n ∧
      (rc ≠ 0 → n ≤ rc) ∧
      reply_size ((dh.entry_list.drop i).take n) ≤ TNFS_MAX_PAYLOAD ∧
      (n < (dh.entry_list.drop i).length ∧ (rc = 0 ∨ n < rc) →
        TNFS_MAX_PAYLOAD < reply_size ((dh.entry_list.drop i).take (n + 1))) := by
  have hcur' : dh.current_entry = dh.entry_list.drop i := by
    rw [hcur, dirlist_get_node_at_index_eq_drop]
  have hrestne : dh.entry_list.drop i ≠ [] := by
    intro hnil
    have := congrArg List.length hnil
    simp only [List.length_drop, List.length_nil] at this
    omega
  obtain ⟨s1, s2, s3, s4, s5⟩ := readdirx_loop_spec rc (dh.entry_list.drop i) 0 READDIRX_HEADER_SIZE
  set p := (readdirx_loop rc (dh.entry_list.drop i) 0 READDIRX_HEADER_SIZE).1 with hp
  set r := (readdirx_loop rc (dh.entry_list.drop i) 0 READDIRX_HEADER_SIZE).2 with hr
  have hnpos : 0 < p.length := by
    rcases Nat.eq_zero_or_pos p.length with hz | hpos
    · exfalso
      rw [hz, List.drop_zero] at s2
      obtain ⟨y, ys, hys⟩ : ∃ y ys, dh.entry_list.drop i = y :: ys := by
        cases hyl : dh.entry_list.drop i with
        | nil => exact absurd hyl hrestne
        | cons y ys => exact ⟨y, ys, rfl⟩
      have hbound := s5 y ys (s2.trans hys) (by omega)
      have hymem : y ∈ dh.entry_list := by
        have : y ∈ dh.entry_list.drop i := by rw [hys]; simp
        exact List.mem_of_mem_drop this
      have := hnames y hymem
      have hpnil : p = [] := List.length_eq_zero.mp hz
      rw [hpnil] at hbound
      simp only [entries_size, TNFS_MAX_PAYLOAD, MAXMSGSZ, TNFS_HEADERSZ, READDIRX_HEADER_SIZE,
        READDIRX_ENTRY_SIZE, MAX_FILENAME_LEN] at hbound this
      omega
    · exact hpos
  have hres : tnfs_readdirx dh 2 h rc junk =
      ([Reply.dirdata .success p.length (decide (r = []))
          (dirlist_get_index_for_node dh.entry_list dh.current_entry) p],
        { dh with current_entry := r }) := by
    unfold tnfs_readdirx
    rw [if_neg (by rintro (h1 | h2) <;> omega)]
    rw [hcur']
    simp only [if_neg hrestne, List.nil_append, ← hp, ← hr]
    rw [if_neg (by omega)]
  refine ⟨p.length, hnpos, ?_, ?_, fun hrc => by have := s3 hrc; omega, ?_, ?_⟩
  · rw [hres]
    have hdirpos : dirlist_get_index_for_node dh.entry_list dh.current_entry = i := by
      rw [hcur', dirlist_get_index_for_node_drop]
      omega
    have heof : decide (r = []) = decide (i + p.length = dh.entry_list.length) := by
      apply decide_eq_decide.mpr
      rw [s2]
      have hplen : p.length ≤ (dh.entry_list.drop i).length := by
        conv_lhs => rw [s1]
        simp
      constructor
      · intro hnil
        have hlen0 := congrArg List.length hnil
        rw [List.length_drop, List.length_drop, List.length_nil] at hlen0
        rw [List.length_drop] at hplen
        omega
      · intro hsum
        apply List.drop_eq_nil_of_le
        rw [List.length_drop]
        omega
    rw [hdirpos, heof, ← s1]
  · rw [hres]
    exact s2
  · have hok := s4 (by decide)
    rw [← s1]
    simp only [reply_size]
    omega
  · rintro ⟨hlt, hcnt⟩
    obtain ⟨y, ys, hys⟩ : ∃ y ys, r = y :: ys := by
      cases hyl : r with
      | nil =>
          exfalso
          rw [hyl] at s2
          have hlen0 := congrArg List.length s2.symm
          rw [List.length_drop, List.length_drop, List.length_nil] at hlen0
          rw [List.length_drop] at hlt
          omega
      | cons y ys => exact ⟨y, ys, rfl⟩
    have hbound := s5 y ys hys (by omega)
    have htake : (dh.entry_list.drop i).take (p.length + 1) = p ++ [y] := by
      have : (dh.entry_list.drop i).take (p.length + 1) =
          (dh.entry_list.drop i).take p.length ++
            ((dh.entry_list.drop i).drop p.length).take 1 := by
        rw [← List.take_add]
      rw [this, ← s1, ← s2, hys]
      rfl
    rw [htake]
    simp only [reply_size, entries_size_append_one]
    omega

/-- Witness for C4 at `handle_ab` with the cursor at index 0 and
`req_count = 1`: one entry is packed, dirpos 0, no EOF bit. -/
theorem claim_C4_witness :
    handle_ab.current_entry = dirlist_get_node_at_index handle_ab.entry_list 0 ∧
    0 < handle_ab.entry_list.length ∧
    (∃ n, 0 < n ∧
      (tnfs_readdirx handle_ab 2 0 1 0).1 =
        [Reply.dirdata .success n (decide (0 + n = handle_ab.entry_list.length)) 0
          ((handle_ab.entry_list.drop 0).take n)] ∧
      (tnfs_readdirx handle_ab 2 0 1 0).2.current_entry = (handle_ab.entry_list.drop 0).drop n ∧
      (1 ≠ 0 → n ≤ 1) ∧
      reply_size ((handle_ab.entry_list.drop 0).take n) ≤ TNFS_MAX_PAYLOAD ∧
      (n < (handle_ab.entry_list.drop 0).length ∧ (1 = 0 ∨ n < 1) →
        TNFS_MAX_PAYLOAD < reply_size ((handle_ab.entry_list.drop 0).take (n + 1)))) := by
  refine ⟨by decide, by decide, ?_⟩
  exact claim_C4_readdirx_batch handle_ab 0 1 0 0 (by decide) (by decide) (by decide)
    (by decide)

/-! ## C8: directory-handle allocation -/

theorem find_first_none_iff (p : dir_handle → Bool) :
    ∀ l : List dir_handle, find_first p l = none ↔ ∀ x ∈ l, p x = false
  | [] => by simp [find_first]
  | dh :: rest => by
      by_cases hp : p dh = true
      · simp [find_first, hp]
      · constructor
        · intro h x hx
          rcases List.mem_cons.mp hx with rfl | hx'
          · exact Bool.eq_false_iff.mpr hp
          · refine (find_first_none_iff p rest).mp ?_ x hx'
            unfold find_first at h
            rw [if_neg hp] at h
            cases hfr : find_first p rest with
            | none => rfl
            | some j =>
                rw [hfr] at h
                exact absurd h (by simp)
        · intro hall
          unfold find_first
          rw [if_neg hp]
          have hrest : find_first p rest = none :=
            (find_first_none_iff p rest).mpr fun x hx => hall x (List.mem_cons_of_mem _ hx)
          rw [hrest]
          rfl

theorem find_first_some_iff (p : dir_handle → Bool) :
    ∀ (l : List dir_handle) (i : Nat),
      find_first p l = some i ↔
        ((∃ dh, l.get? i = some dh ∧ p dh = true) ∧
          ∀ j, j < i → ∀ dh, l.get? j = some dh → p dh = false)
  | [], i => by
      constructor
      · intro h
        exact absurd h (by simp [find_first])
      · rintro ⟨⟨dh, hdh, _⟩, _⟩
        exact absurd hdh (by simp)
  | dh :: rest, i => by
      by_cases hp : p dh = true
      · constructor
        · intro h
          have hi : i = 0 := by
            unfold find_first at h
            rw [if_pos hp] at h
            exact (Option.some_inj.mp h).symm
          subst hi
          exact ⟨⟨dh, rfl, hp⟩, fun j hj => absurd hj (Nat.not_lt_zero j)⟩
        · rintro ⟨⟨x, hx, hpx⟩, hleast⟩
          unfold find_first
          rw [if_pos hp]
          cases i with
          | zero => rfl
          | succ i =>
              exfalso
              have h0 := hleast 0 (Nat.succ_pos i) dh rfl
              rw [h0] at hp
              simp at hp
      · have hstep : find_first p (dh :: rest) = (find_first p rest).map (· + 1) := by
          rw [find_first, if_neg hp]
        constructor
        · intro h
          rw [hstep] at h
          obtain ⟨j, hj, hji⟩ := Option.map_eq_some'.mp h
          cases i with
          | zero =>
              exfalso
              omega
          | succ i =>
              have hj' : j = i := by omega
              subst hj'
              obtain ⟨hex, hleast⟩ := (find_first_some_iff p rest j).mp hj
              constructor
              · obtain ⟨x, hx, hpx⟩ := hex
                exact ⟨x, by simpa using hx, hpx⟩
              · intro j hji' x hx
                cases j with
                | zero =>
                    rw [List.get?_cons_zero] at hx
                    cases hx
                    exact Bool.eq_false_iff.mpr hp
                | succ j =>
                    rw [List.get?_cons_succ] at hx
                    exact hleast j (by omega) x hx
        · rintro ⟨⟨x, hx, hpx⟩, hleast⟩
          cases i with
          | zero =>
              rw [List.get?_cons_zero] at hx
              cases hx
              exact absurd hpx hp
          | succ i =>
              rw [hstep]
              have hrest : find_first p rest = some i := by
                rw [find_first_some_iff p rest i]
                refine ⟨⟨x, by simpa using hx, hpx⟩, ?_⟩
                intro j hji y hy
                exact hleast (j + 1) (by omega) y (by simpa using hy)
              rw [hrest]
              rfl

theorem sweep_slot_open_flag (now : Nat) (dh : dir_handle) :
    (if !dh.open_flag && dh.loaded && decide (dh.open_at + DIR_HANDLE_TIMEOUT < now) then
        _tnfs_free_dir_handle dh
      else dh).open_flag = dh.open_flag := by
  split <;> rfl

theorem sweep_handles_preserves_open (now : Nat) (l : List dir_handle) :
    (∀ dh ∈ sweep_handles now l, dh.open_flag = true) ↔
      ∀ dh ∈ l, dh.open_flag = true := by
  unfold sweep_handles
  constructor
  · intro hall dh hdh
    have h0 := hall _ (List.mem_map_of_mem _ hdh)
    rwa [sweep_slot_open_flag] at h0
  · intro hall x hx
    obtain ⟨y, hy, rfl⟩ := List.mem_map.mp hx
    rw [sweep_slot_open_flag]
    exact hall y hy

/-- C8 as stated is false: reuse (attempt 1) checks only `loaded` and the
parameter match, not that the slot is closed.  Here slot 0 is OPEN, loaded
and matching while slot 1 is completely free; the claim's tier 1 skips the
open slot and its tier 2 would hand out slot 1, but the code returns the
open slot 0, aliasing the live handle. -/
theorem claim_C8_counterexample :
    (_tnfs_find_free_dir_handle 0 [slot_open_loaded, slot_free] ['/', 'r']
        ⟨false, false, false, false, false, false⟩ ⟨false, false, false, false, false⟩
        none true).1 = some 0 ∧
    slot_open_loaded.open_flag = true ∧ slot_open_loaded.loaded = true ∧
    reuse_match ['/', 'r'] ⟨false, false, false, false, false, false⟩
      ⟨false, false, false, false, false⟩ none slot_open_loaded = true ∧
    slot_free.open_flag = false ∧ slot_free.loaded = false := by
  refine ⟨by decide, by decide, by decide, by decide, by decide, by decide⟩

/-- C8 (amended): allocation first frees every non-open loaded slot whose
`open_at + DIR_HANDLE_TIMEOUT` is before `now`, then tries three tiers in
order on the swept table: (1) when reuse is requested, the first slot that
is loaded — whether or not it is still open — with equal
`(path, diropt, sortopt, pattern)` has its cursor reset to the list head
and its index is returned; (2) otherwise the first slot that is neither
open nor loaded is initialized and returned; (3) otherwise the first slot
that is not open is released (if loaded) and reinitialized; and the
allocation reports no handle (EMFILE) if and only if every slot is open
and, when reuse is requested, no loaded slot matches the parameters. -/
theorem claim_C8_allocation_amended (now : Nat) (l : List dir_handle) (path : List Char)
    (d : DirOpts) (so : SortOpts) (pat : Option (List Char)) (reuse : Bool) :
    ((_tnfs_find_free_dir_handle now l path d so pat reuse).1 = none ↔
      ((∀ dh ∈ l, dh.open_flag = true) ∧
        (reuse = true → ∀ dh ∈ sweep_handles now l, reuse_match path d so pat dh = false))) ∧
    (∀ i, reuse = true →
      (∃ dh, (sweep_handles now l).get? i = some dh ∧ reuse_match path d so pat dh = true) →
      (∀ j, j < i → ∀ dh, (sweep_handles now l).get? j = some dh →
        reuse_match path d so pat dh = false) →
      _tnfs_find_free_dir_handle now l path d so pat reuse =
        (some i, update_at (sweep_handles now l) i fun dh =>
          { dh with current_entry := dh.entry_list })) ∧
    (∀ i, (reuse = true → ∀ dh ∈ sweep_handles now l, reuse_match path d so pat dh = false) →
      (∃ dh, (sweep_handles now l).get? i = some dh ∧
        dh.open_flag = false ∧ dh.loaded = false) →
      (∀ j, j < i → ∀ dh, (sweep_handles now l).get? j = some dh →
        ¬(dh.open_flag = false ∧ dh.loaded = false)) →
      _tnfs_find_free_dir_handle now l path d so pat reuse =
        (some i, update_at (sweep_handles now l) i fun dh =>
          _tnfs_init_dhandle dh path d so pat now)) ∧
    (∀ i, (reuse = true → ∀ dh ∈ sweep_handles now l, reuse_match path d so pat dh = false) →
      (∀ dh ∈ sweep_handles now l, ¬(dh.open_flag = false ∧ dh.loaded = false)) →
      (∃ dh, (sweep_handles now l).get? i = some dh ∧ dh.open_flag = false) →
      (∀ j, j < i → ∀ dh, (sweep_handles now l).get? j = some dh → dh.open_flag = true) →
      _tnfs_find_free_dir_handle now l path d so pat reuse =
        (some i, update_at (sweep_handles now l) i fun dh =>
          _tnfs_init_dhandle (if dh.loaded then _tnfs_free_dir_handle dh else dh)
            path d so pat now)) := by
  refine ⟨?_, ?_, ?_, ?_⟩
  · constructor
    · intro hnone
      simp only [_tnfs_find_free_dir_handle] at hnone
      cases h1 : (if reuse then
          find_first (reuse_match path d so pat) (sweep_handles now l) else none) with
      | some i => rw [h1] at hnone; simp at hnone
      | none =>
        rw [h1] at hnone
        cases h2 : find_first (fun dh => !dh.open_flag && !dh.loaded) (sweep_handles now l) with
        | some i => rw [h2] at hnone; simp at hnone
        | none =>
          rw [h2] at hnone
          cases h3 : find_first (fun dh => !dh.open_flag) (sweep_handles now l) with
          | some i => rw [h3] at hnone; simp at hnone
          | none =>
            have hopen3 := (find_first_none_iff _ _).mp h3
            refine ⟨?_, ?_⟩
            · rw [← sweep_handles_preserves_open now l]
              intro dh hdh
              have := hopen3 dh hdh
              simpa using this
            · intro hreuse
              rw [hreuse] at h1
              simp only [if_pos] at h1
              exact (find_first_none_iff _ _).mp h1
    · rintro ⟨hallopen, hnomatch⟩
      have hopenl1 : ∀ dh ∈ sweep_handles now l, dh.open_flag = true :=
        (sweep_handles_preserves_open now l).mpr hallopen
      have h3 : find_first (fun dh => !dh.open_flag) (sweep_handles now l) = none :=
        (find_first_none_iff _ _).mpr fun x hx => by
          have := hopenl1 x hx
          simp [this]
      have h2 : find_first (fun dh => !dh.open_flag && !dh.loaded) (sweep_handles now l) =
          none :=
        (find_first_none_iff _ _).mpr fun x hx => by
          have := hopenl1 x hx
          simp [this]
      have h1 : (if reuse then
          find_first (reuse_match path d so pat) (sweep_handles now l) else none) = none := by
        cases reuse with
        | false => rfl
        | true =>
            simp only [if_pos]
            exact (find_first_none_iff _ _).mpr (hnomatch rfl)
      simp only [_tnfs_find_free_dir_handle]
      rw [h1, h2, h3]
  · intro i hreuse hex hleast
    have hfind : find_first (reuse_match path d so pat) (sweep_handles now l) = some i :=
      (find_first_some_iff _ _ _).mpr ⟨hex, hleast⟩
    simp only [_tnfs_find_free_dir_handle]
    rw [hreuse]
    simp only [if_pos]
    rw [hfind]
  · intro i hnomatch hex hleast
    have h1 : (if reuse then
        find_first (reuse_match path d so pat) (sweep_handles now l) else none) = none := by
      cases reuse with
      | false => rfl
      | true =>
          simp only [if_pos]
          exact (find_first_none_iff _ _).mpr (hnomatch rfl)
    have hfind : find_first (fun dh => !dh.open_flag && !dh.loaded) (sweep_handles now l) =
        some i := by
      apply (find_first_some_iff _ _ _).mpr
      constructor
      · obtain ⟨dh, hdh, ho, hl⟩ := hex
        exact ⟨dh, hdh, by simp [ho, hl]⟩
      · intro j hj dh hdh
        have := hleast j hj dh hdh
        by_cases ho : dh.open_flag = false
        · by_cases hl : dh.loaded = false
          · exact absurd ⟨ho, hl⟩ this
          · simp only [Bool.not_eq_false] at hl
            simp [hl]
        · simp only [Bool.not_eq_false] at ho
          simp [ho]
    simp only [_tnfs_find_free_dir_handle]
    rw [h1, hfind]
  · intro i hnomatch hnoempty hex hleast
    have h1 : (if reuse then
        find_first (reuse_match path d so pat) (sweep_handles now l) else none) = none := by
      cases reuse with
      | false => rfl
      | true =>
          simp only [if_pos]
          exact (find_first_none_iff _ _).mpr (hnomatch rfl)
    have h2 : find_first (fun dh => !dh.open_flag && !dh.loaded) (sweep_handles now l) =
        none := by
      apply (find_first_none_iff _ _).mpr
      intro x hx
      have := hnoempty x hx
      by_cases ho : x.open_flag = false
      · by_cases hl : x.loaded = false
        · exact absurd ⟨ho, hl⟩ this
        · simp only [Bool.not_eq_false] at hl
          simp [hl]
      · simp only [Bool.not_eq_false] at ho
        simp [ho]
    have hfind : find_first (fun dh => !dh.open_flag) (sweep_handles now l) = some i := by
      apply (find_first_some_iff _ _ _).mpr
      constructor
      · obtain ⟨dh, hdh, ho⟩ := hex
        exact ⟨dh, hdh, by simp [ho]⟩
      · intro j hj dh hdh
        have := hleast j hj dh hdh
        simp [this]
    simp only [_tnfs_find_free_dir_handle]
    rw [h1, h2, hfind]

/-- Witness for C8 at a concrete state: with one open slot and one free
slot and no reuse, tier 2 hands out the free slot 1. -/
theorem claim_C8_witness :
    _tnfs_find_free_dir_handle 0 [slot_open_loaded, slot_free] ['/', 'r']
        ⟨false, false, false, false, false, false⟩ ⟨false, false, false, false, false⟩
        none false =
      (some 1, update_at (sweep_handles 0 [slot_open_loaded, slot_free]) 1 fun dh =>
        _tnfs_init_dhandle dh ['/', 'r'] ⟨false, false, false, false, false, false⟩
          ⟨false, false, false, false, false⟩ none 0) :=
  (claim_C8_allocation_amended 0 [slot_open_loaded, slot_free] ['/', 'r']
      ⟨false, false, false, false, false, false⟩ ⟨false, false, false, false, false⟩
      none false).2.2.1 1
    (fun h => by cases h)
    ⟨slot_free, by decide, by decide, by decide⟩
    (fun j hj dh hdh => by
      interval_cases j
      · simp only [show (sweep_handles 0 [slot_open_loaded, slot_free]).get? 0 =
            some slot_open_loaded by decide] at hdh
        cases hdh
        intro hcon
        exact absurd hcon.1 (by decide))

/-! ## C6: the DP matcher against the spec's glob semantics -/

theorem bool_eq_of_iff {a b : Bool} (h : a = true ↔ b = true) : a = b := by
  cases a <;> cases b <;> simp_all

theorem take_succ_getD (l : List Char) (j : Nat) (h : j < l.length) :
    l.take (j + 1) = l.take j ++ [l.getD j ' '] := by
  rw [List.take_succ]
  congr 1
  simp [List.getElem?_eq_getElem h]

theorem spec_glob_cons_star (s p : List Char) :
    spec_glob s ('*' :: p) =
      (List.range (s.length + 1)).any fun k => spec_glob (s.drop k) p := rfl

theorem spec_glob_nil_cons (d : Char) (p : List Char) (hd : d ≠ '*') :
    spec_glob [] (d :: p) = false := by
  rw [spec_glob.eq_def]
  simp only [if_neg hd]

theorem spec_glob_cons_cons (d : Char) (p : List Char) (hd : d ≠ '*') (c : Char)
    (s : List Char) :
    spec_glob (c :: s) (d :: p) =
      ((decide (d = '?') || decide (ctolower c = ctolower d)) && spec_glob s p) := by
  rw [spec_glob.eq_def]
  simp only [if_neg hd]

/-- A trailing `*` matches when some prefix of the string matches the rest
of the pattern. -/
theorem spec_glob_append_star :
    ∀ (q s : List Char),
      (spec_glob s (q ++ ['*']) = true ↔
        ∃ k, k ≤ s.length ∧ spec_glob (s.take k) q = true)
  | [], s => by
      rw [List.nil_append]
      constructor
      · intro _
        exact ⟨0, Nat.zero_le _, by simp [spec_glob]⟩
      · intro _
        rw [spec_glob_cons_star, List.any_eq_true]
        refine ⟨s.length, ?_, ?_⟩
        · rw [List.mem_range]
          omega
        · rw [List.drop_length]
          rfl
  | d :: q, s => by
      by_cases hd : d = '*'
      · subst hd
        rw [show ('*' :: q) ++ ['*'] = '*' :: (q ++ ['*']) from rfl]
        rw [spec_glob_cons_star]
        constructor
        · intro h
          rw [List.any_eq_true] at h
          obtain ⟨k, hk, hg⟩ := h
          rw [List.mem_range] at hk
          obtain ⟨m, hm, hseg⟩ := (spec_glob_append_star q (s.drop k)).mp hg
          refine ⟨k + m, ?_, ?_⟩
          · rw [List.length_drop] at hm
            omega
          · rw [spec_glob_cons_star, List.any_eq_true]
            refine ⟨k, ?_, ?_⟩
            · rw [List.mem_range, List.length_take]
              omega
            · rw [List.drop_take]
              rw [show k + m - k = m from by omega]
              exact hseg
        · rintro ⟨k, hk, hg⟩
          rw [spec_glob_cons_star, List.any_eq_true] at hg
          obtain ⟨m, hm, hseg⟩ := hg
          rw [List.mem_range, List.length_take] at hm
          rw [List.any_eq_true]
          refine ⟨m, ?_, ?_⟩
          · rw [List.mem_range]
            omega
          · apply (spec_glob_append_star q (s.drop m)).mpr
            refine ⟨k - m, ?_, ?_⟩
            · rw [List.length_drop]
              omega
            · rw [List.drop_take] at hseg
              exact hseg
      · rw [show (d :: q) ++ ['*'] = d :: (q ++ ['*']) from rfl]
        cases s with
        | nil =>
            rw [spec_glob_nil_cons d _ hd]
            constructor
            · intro h
              exact absurd h (by simp)
            · rintro ⟨k, hk, hg⟩
              have hk0 : k = 0 := by simpa using hk
              subst hk0
              rw [List.take_zero, spec_glob_nil_cons d q hd] at hg
              exact absurd hg (by simp)
        | cons a s =>
            rw [spec_glob_cons_cons d _ hd, Bool.and_eq_true]
            constructor
            · rintro ⟨hcond, htail⟩
              obtain ⟨k, hk, hg⟩ := (spec_glob_append_star q s).mp htail
              refine ⟨k + 1, by simpa using hk, ?_⟩
              rw [List.take_succ_cons, spec_glob_cons_cons d q hd, Bool.and_eq_true]
              exact ⟨hcond, hg⟩
            · rintro ⟨k, hk, hg⟩
              match k with
              | 0 =>
                  rw [List.take_zero, spec_glob_nil_cons d q hd] at hg
                  exact absurd hg (by simp)
              | k + 1 =>
                  rw [List.take_succ_cons, spec_glob_cons_cons d q hd,
                    Bool.and_eq_true] at hg
                  refine ⟨hg.1, ?_⟩
                  apply (spec_glob_append_star q s).mpr
                  exact ⟨k, by simpa using hk, hg.2⟩

/-- A trailing literal or `?` consumes exactly the last character. -/
theorem spec_glob_append_lit (d : Char) (hd : d ≠ '*') :
    ∀ q : List Char,
      (spec_glob [] (q ++ [d]) = false) ∧
      (∀ s c, spec_glob (s ++ [c]) (q ++ [d]) = true ↔
        ((d = '?' ∨ ctolower c = ctolower d) ∧ spec_glob s q = true))
  | [] => by
      constructor
      · rw [List.nil_append]
        exact spec_glob_nil_cons d [] hd
      · intro s c
        rw [List.nil_append]
        cases s with
        | nil =>
            rw [List.nil_append, spec_glob_cons_cons d [] hd, Bool.and_eq_true]
            constructor
            · rintro ⟨hcond, _⟩
              refine ⟨?_, rfl⟩
              simpa only [Bool.or_eq_true, decide_eq_true_eq] using hcond
            · rintro ⟨hcond, _⟩
              refine ⟨?_, rfl⟩
              simpa only [Bool.or_eq_true, decide_eq_true_eq] using hcond
        | cons a s =>
            rw [show (a :: s) ++ [c] = a :: (s ++ [c]) from rfl,
              spec_glob_cons_cons d [] hd, Bool.and_eq_true]
            constructor
            · rintro ⟨_, htail⟩
              exfalso
              rw [show spec_glob (s ++ [c]) [] = (s ++ [c]).isEmpty from rfl] at htail
              simp at htail
            · rintro ⟨_, htail⟩
              exfalso
              rw [show spec_glob (a :: s) [] = (a :: s).isEmpty from rfl] at htail
              simp at htail
  | e :: q => by
      by_cases he : e = '*'
      · subst he
        constructor
        · rw [show ('*' :: q) ++ [d] = '*' :: (q ++ [d]) from rfl, spec_glob_cons_star]
          apply Bool.eq_false_iff.mpr
          intro h
          rw [List.any_eq_true] at h
          obtain ⟨k, _, hg⟩ := h
          rw [List.drop_nil] at hg
          rw [(spec_glob_append_lit d hd q).1] at hg
          exact Bool.false_ne_true hg
        · intro s c
          rw [show ('*' :: q) ++ [d] = '*' :: (q ++ [d]) from rfl, spec_glob_cons_star]
          constructor
          · intro h
            rw [List.any_eq_true] at h
            obtain ⟨k, hk, hg⟩ := h
            simp only [List.mem_range, List.length_append, List.length_cons, List.length_nil] at hk
            by_cases hks : k ≤ s.length
            · rw [List.drop_append_of_le_length hks] at hg
              obtain ⟨hcond, hg2⟩ := ((spec_glob_append_lit d hd q).2 (s.drop k) c).mp hg
              refine ⟨hcond, ?_⟩
              rw [spec_glob_cons_star, List.any_eq_true]
              refine ⟨k, ?_, hg2⟩
              rw [List.mem_range]
              omega
            · have hnil : (s ++ [c]).drop k = [] := by
                apply List.drop_eq_nil_of_le
                simp only [List.length_append, List.length_cons, List.length_nil]
                omega
              rw [hnil, (spec_glob_append_lit d hd q).1] at hg
              exact absurd hg (by simp)
          · rintro ⟨hcond, htail⟩
            rw [spec_glob_cons_star, List.any_eq_true] at htail
            obtain ⟨k, hk, hg⟩ := htail
            rw [List.mem_range] at hk
            rw [List.any_eq_true]
            refine ⟨k, ?_, ?_⟩
            · simp only [List.mem_range, List.length_append, List.length_cons,
                List.length_nil]
              omega
            · have hks : k ≤ s.length := by omega
              rw [List.drop_append_of_le_length hks]
              exact ((spec_glob_append_lit d hd q).2 (s.drop k) c).mpr ⟨hcond, hg⟩
      · constructor
        · rw [show (e :: q) ++ [d] = e :: (q ++ [d]) from rfl]
          exact spec_glob_nil_cons e _ he
        · intro s c
          rw [show (e :: q) ++ [d] = e :: (q ++ [d]) from rfl]
          cases s with
          | nil =>
              rw [List.nil_append, spec_glob_cons_cons e _ he, Bool.and_eq_true]
              constructor
              · rintro ⟨_, htail⟩
                exfalso
                rw [(spec_glob_append_lit d hd q).1] at htail
                exact Bool.false_ne_true htail
              · rintro ⟨_, htail⟩
                exfalso
                rw [spec_glob_nil_cons e q he] at htail
                exact Bool.false_ne_true htail
          | cons a s =>
              rw [show (a :: s) ++ [c] = a :: (s ++ [c]) from rfl,
                spec_glob_cons_cons e _ he, Bool.and_eq_true]
              constructor
              · rintro ⟨hconde, htail⟩
                obtain ⟨hcond, hg⟩ := ((spec_glob_append_lit d hd q).2 s c).mp htail
                refine ⟨hcond, ?_⟩
                rw [spec_glob_cons_cons e q he, Bool.and_eq_true]
                exact ⟨hconde, hg⟩
              · rintro ⟨hcond, htail⟩
                rw [spec_glob_cons_cons e q he, Bool.and_eq_true] at htail
                obtain ⟨hconde, hg⟩ := htail
                exact ⟨hconde, ((spec_glob_append_lit d hd q).2 s c).mpr ⟨hcond, hg⟩⟩

/-- The DP table of `_pattern_match` decides exactly the spec's glob
relation between the corresponding prefixes of `src` and `pattern`. -/
theorem pm_lookup_iff (src pat : List Char) :
    ∀ i j, i ≤ src.length → j ≤ pat.length →
      (pm_lookup src pat i j = true ↔ spec_glob (src.take i) (pat.take j) = true)
  | 0, 0 => fun _ _ => by
      rw [pm_lookup, List.take_zero, List.take_zero]
      rw [show spec_glob ([] : List Char) [] = true from rfl]
  | 0, j + 1 => fun hi hj => by
      have ihj := pm_lookup_iff src pat 0 j (by omega) (by omega)
      have hsnoc : pat.take (j + 1) = pat.take j ++ [pat.getD j ' '] :=
        take_succ_getD pat j (by omega)
      rw [pm_lookup, List.take_zero, hsnoc]
      rw [List.take_zero] at ihj
      by_cases hstar : pat.getD j ' ' = '*'
      · rw [if_pos hstar, hstar]
        constructor
        · intro h
          apply (spec_glob_append_star (pat.take j) []).mpr
          exact ⟨0, by simp, by simpa using ihj.mp h⟩
        · intro h
          obtain ⟨k, hk, hg⟩ := (spec_glob_append_star (pat.take j) []).mp h
          have hk0 : k = 0 := by simpa using hk
          subst hk0
          exact ihj.mpr (by simpa using hg)
      · rw [if_neg hstar]
        constructor
        · intro h
          exact absurd h (by simp)
        · intro h
          exfalso
          rw [(spec_glob_append_lit _ hstar (pat.take j)).1] at h
          exact Bool.false_ne_true h
  | i + 1, 0 => fun hi hj => by
      rw [pm_lookup, List.take_zero]
      constructor
      · intro h
        exact absurd h (by simp)
      · intro h
        exfalso
        rw [show spec_glob (src.take (i + 1)) [] = (src.take (i + 1)).isEmpty from rfl] at h
        rw [List.isEmpty_iff] at h
        have := congrArg List.length h
        rw [List.length_take, List.length_nil] at this
        omega
  | i + 1, j + 1 => fun hi hj => by
      have hcs : src.take (i + 1) = src.take i ++ [src.getD i ' '] :=
        take_succ_getD src i (by omega)
      have hds : pat.take (j + 1) = pat.take j ++ [pat.getD j ' '] :=
        take_succ_getD pat j (by omega)
      rw [pm_lookup, hcs, hds]
      by_cases hstar : pat.getD j ' ' = '*'
      · rw [if_pos hstar, hstar]
        have ih1 := pm_lookup_iff src pat (i + 1) j (by omega) (by omega)
        have ih2 := pm_lookup_iff src pat i (j + 1) (by omega) (by omega)
        rw [hds] at ih2
        rw [hstar] at ih2
        rw [Bool.or_eq_true]
        have hlen1 : (src.take (i + 1)).length = i + 1 := by
          rw [List.length_take]
          omega
        have hleni : (src.take i).length = i := by
          rw [List.length_take]
          omega
        constructor
        · rintro (h | h)
          · apply (spec_glob_append_star (pat.take j) _).mpr
            refine ⟨(src.take i ++ [src.getD i ' ']).length, le_refl _, ?_⟩
            rw [List.take_length, ← hcs]
            exact ih1.mp h
          · have h2 := ih2.mp h
            obtain ⟨k, hk, hg⟩ := (spec_glob_append_star (pat.take j) (src.take i)).mp h2
            apply (spec_glob_append_star (pat.take j) _).mpr
            rw [hleni] at hk
            refine ⟨k, ?_, ?_⟩
            · rw [← hcs, hlen1]
              omega
            · rw [List.take_append_of_le_length (by rw [hleni]; omega)]
              exact hg
        · intro h
          obtain ⟨k, hk, hg⟩ := (spec_glob_append_star (pat.take j) _).mp h
          rw [← hcs, hlen1] at hk
          by_cases hki : k = i + 1
          · left
            apply ih1.mpr
            subst hki
            rw [List.take_of_length_le (by rw [List.length_append, hleni]; simp), ← hcs] at hg
            exact hg
          · right
            apply ih2.mpr
            apply (spec_glob_append_star (pat.take j) (src.take i)).mpr
            refine ⟨k, by rw [hleni]; omega, ?_⟩
            rw [List.take_append_of_le_length (by rw [hleni]; omega)] at hg
            exact hg
      · rw [if_neg hstar]
        have ih := pm_lookup_iff src pat i j (by omega) (by omega)
        by_cases hcond : pat.getD j ' ' = '?'
            ∨ src.getD i ' ' = pat.getD j ' '
            ∨ ctolower (src.getD i ' ') = ctolower (pat.getD j ' ')
        · rw [if_pos hcond]
          constructor
          · intro h
            apply ((spec_glob_append_lit _ hstar (pat.take j)).2 _ _).mpr
            refine ⟨?_, ih.mp h⟩
            rcases hcond with h1 | h2 | h3
            · exact Or.inl h1
            · exact Or.inr (by rw [h2])
            · exact Or.inr h3
          · intro h
            obtain ⟨_, hg⟩ := ((spec_glob_append_lit _ hstar (pat.take j)).2 _ _).mp h
            exact ih.mpr hg
        · rw [if_neg hcond]
          constructor
          · intro h
            exact absurd h (by simp)
          · intro h
            obtain ⟨hcd, _⟩ := ((spec_glob_append_lit _ hstar (pat.take j)).2 _ _).mp h
            exact absurd (hcd.elim Or.inl fun hx => Or.inr (Or.inr hx)) hcond
  termination_by i j => (i, j)

/-- `_pattern_match` computes exactly the spec's glob relation. -/
theorem _pattern_match_eq_spec_glob (src pat : List Char) :
    _pattern_match src pat = spec_glob src pat := by
  unfold _pattern_match
  cases pat with
  | nil =>
      rw [if_pos (show ([] : List Char).length = 0 from rfl)]
      cases src <;> rfl
  | cons d p =>
      rw [if_neg (by simp)]
      apply bool_eq_of_iff
      have h := pm_lookup_iff src (d :: p) src.length (d :: p).length (le_refl _) (le_refl _)
      rw [List.take_length, List.take_length] at h
      exact h

theorem spec_glob_nonsep_cons_star (s p : List Char) :
    spec_glob_nonsep s ('*' :: p) =
      (List.range (s.length + 1)).any fun k => spec_glob_nonsep (s.drop k) p := rfl

theorem spec_glob_nonsep_nil_cons (d : Char) (p : List Char) (hd : d ≠ '*') :
    spec_glob_nonsep [] (d :: p) = false := by
  rw [spec_glob_nonsep.eq_def]
  simp only [if_neg hd]

theorem spec_glob_nonsep_cons_cons (d : Char) (p : List Char) (hd : d ≠ '*') (c : Char)
    (s : List Char) :
    spec_glob_nonsep (c :: s) (d :: p) =
      ((if d = '?' then decide (c ≠ '/') else decide (ctolower c = ctolower d))
        && spec_glob_nonsep s p) := by
  rw [spec_glob_nonsep.eq_def]
  simp only [if_neg hd]

/-- On separator-free strings (every name readdir can produce) the two
glob semantics agree. -/
theorem spec_glob_nonsep_eq :
    ∀ (p s : List Char), '/' ∉ s → spec_glob_nonsep s p = spec_glob s p
  | [], s, _ => rfl
  | d :: p, s, hs => by
      by_cases hd : d = '*'
      · subst hd
        rw [spec_glob_nonsep_cons_star, spec_glob_cons_star]
        apply bool_eq_of_iff
        rw [List.any_eq_true, List.any_eq_true]
        constructor
        · rintro ⟨k, hk, hg⟩
          refine ⟨k, hk, ?_⟩
          rw [← spec_glob_nonsep_eq p (s.drop k) fun hm => hs (List.mem_of_mem_drop hm)]
          exact hg
        · rintro ⟨k, hk, hg⟩
          refine ⟨k, hk, ?_⟩
          rw [spec_glob_nonsep_eq p (s.drop k) fun hm => hs (List.mem_of_mem_drop hm)]
          exact hg
      · cases s with
        | nil => rw [spec_glob_nonsep_nil_cons d p hd, spec_glob_nil_cons d p hd]
        | cons c s =>
            have hc : c ≠ '/' := fun h => hs (h ▸ List.mem_cons_self c s)
            have hs2 : '/' ∉ s := fun h => hs (List.mem_cons_of_mem c h)
            rw [spec_glob_nonsep_cons_cons d p hd, spec_glob_cons_cons d p hd]
            rw [spec_glob_nonsep_eq p s hs2]
            congr 1
            by_cases hq : d = '?'
            · rw [if_pos hq]
              simp [hq, hc]
            · rw [if_neg hq]
              simp [hq]

/-- C6: on directory-entry names (which never contain the path
separator), `_pattern_match` implements exactly the claim's
case-insensitive glob semantics — `*` matches any sequence, `?` exactly
one non-separator character, literals case-insensitively — and
`_load_directory` applies the pattern to every non-directory entry but to
directory entries only when the DIR_PATTERN option bit is set. -/
theorem claim_C6_pattern_match_glob (src pattern : List Char)
    (hsep : '/' ∉ src) (hpat : pattern ≠ []) :
    _pattern_match src pattern = spec_glob_nonsep src pattern ∧
    (∀ (d : DirOpts) (pat : List Char) (e : DirEntry),
      (e.flags.directory = true → d.dir_pattern = false →
        entry_passes d (some pat) e = entry_passes d none e) ∧
      ((e.flags.directory = false ∨ d.dir_pattern = true) →
        entry_passes d (some pat) e =
          (_pattern_match e.entrypath pat && entry_passes d none e))) := by
  constructor
  · rw [_pattern_match_eq_spec_glob, spec_glob_nonsep_eq pattern src hsep]
  · intro d pat e
    have hrej : pattern_rejects (some pat) e.entrypath = !_pattern_match e.entrypath pat := rfl
    have hrejn : pattern_rejects none e.entrypath = false := rfl
    constructor
    · intro hdir hnopat
      unfold entry_passes
      rw [hdir, hnopat, hrej, hrejn]
      simp
    · intro hcase
      unfold entry_passes
      rw [hrej, hrejn]
      have hgate : (d.dir_pattern || !e.flags.directory) = true := by
        rcases hcase with h | h
        · rw [h]
          simp
        · rw [h]
          simp
      rw [hgate]
      cases hm : _pattern_match e.entrypath pat <;> simp

/-- Witness for C6: pattern `A?` matches name `ab` case-insensitively. -/
theorem claim_C6_witness :
    ('/' ∉ "ab".data) ∧ "A?".data ≠ [] ∧
    _pattern_match "ab".data "A?".data = spec_glob_nonsep "ab".data "A?".data ∧
    _pattern_match "ab".data "A?".data = true :=
  ⟨by decide, by decide,
    (claim_C6_pattern_match_glob "ab".data "A?".data (by decide) (by decide)).1,
    by rw [_pattern_match_eq_spec_glob]; decide⟩

/-! ## C5: loading, filtering and sorting -/

theorem char_toNat_ofNat (n : Nat) (h : n.isValidChar) : (Char.ofNat n).toNat = n := by
  rw [Char.ofNat, dif_pos h, Char.ofNatAux, Char.toNat]
  simp [UInt32.toNat]

theorem char_toNat_inj {a b : Char} (h : a.toNat = b.toNat) : a = b := by
  have h2 := congrArg Char.ofNat h
  rwa [Char.ofNat_toNat, Char.ofNat_toNat] at h2

theorem ctolower_ne_nul {c : Char} (h : c ≠ Char.ofNat 0) : ctolower c ≠ Char.ofNat 0 := by
  unfold ctolower
  split_ifs with hc
  · intro heq
    obtain ⟨h1, h2⟩ := hc
    rw [Char.le_def] at h1 h2
    have h1n : 65 ≤ c.toNat := h1
    have h2n : c.toNat ≤ 90 := h2
    have hvalid : (c.toNat + 32).isValidChar := Or.inl (by omega)
    have := congrArg Char.toNat heq
    rw [char_toNat_ofNat _ hvalid] at this
    have hz : (Char.ofNat 0).toNat = 0 := rfl
    omega
  · exact h

theorem nul_free_map_ctolower {s : List Char} (h : Char.ofNat 0 ∉ s) :
    Char.ofNat 0 ∉ s.map ctolower := by
  intro hm
  obtain ⟨c, hc, hmap⟩ := List.mem_map.mp hm
  exact ctolower_ne_nul (fun hz => h (hz ▸ hc)) hmap

theorem strcmp_antisym : ∀ a b : List Char, strcmp a b = -strcmp b a
  | [], [] => by simp [strcmp]
  | [], _ :: _ => by simp [strcmp]
  | _ :: _, [] => by simp [strcmp]
  | a :: as, b :: bs => by
      by_cases h : a = b
      · subst h
        rw [strcmp, strcmp, if_pos rfl, if_pos rfl]
        exact strcmp_antisym as bs
      · rw [strcmp, strcmp, if_neg h, if_neg fun hb => h hb.symm]
        ring

theorem strcasecmp_antisym (a b : List Char) : strcasecmp a b = -strcasecmp b a :=
  strcmp_antisym _ _

theorem u32_sub_as_int_eq (a b : Nat) (ha : a < 2 ^ 31) (hb : b < 2 ^ 31) :
    u32_sub_as_int a b = (a : Int) - b := by
  unfold u32_sub_as_int toInt32
  have h1 : a % 2 ^ 32 = a := Nat.mod_eq_of_lt (by omega)
  have h2 : b % 2 ^ 32 = b := Nat.mod_eq_of_lt (by omega)
  rw [h1, h2]
  split_ifs with h
  · omega
  · omega

theorem entry_cmp_antisym (so : SortOpts) (a b : DirEntry)
    (hs : so.sort_size = true → a.size < 2 ^ 31 ∧ b.size < 2 ^ 31)
    (hm : so.sort_size = false → so.sort_modified = true →
      a.mtime < 2 ^ 31 ∧ b.mtime < 2 ^ 31) :
    entry_cmp so a b = -entry_cmp so b a := by
  have core : (if so.sort_size then u32_sub_as_int a.size b.size
      else if so.sort_modified then u32_sub_as_int a.mtime b.mtime
      else if so.sort_case then strcmp a.entrypath b.entrypath
      else strcasecmp a.entrypath b.entrypath) =
      -(if so.sort_size then u32_sub_as_int b.size a.size
        else if so.sort_modified then u32_sub_as_int b.mtime a.mtime
        else if so.sort_case then strcmp b.entrypath a.entrypath
        else strcasecmp b.entrypath a.entrypath) := by
    by_cases h1 : so.sort_size = true
    · obtain ⟨ha, hb⟩ := hs h1
      rw [if_pos h1, if_pos h1, u32_sub_as_int_eq _ _ ha hb, u32_sub_as_int_eq _ _ hb ha]
      ring
    · have h1f : so.sort_size = false := by
        revert h1
        cases so.sort_size <;> simp
      rw [if_neg h1, if_neg h1]
      by_cases h2 : so.sort_modified = true
      · obtain ⟨ha, hb⟩ := hm h1f h2
        rw [if_pos h2, if_pos h2, u32_sub_as_int_eq _ _ ha hb, u32_sub_as_int_eq _ _ hb ha]
        ring
      · rw [if_neg h2, if_neg h2]
        by_cases h3 : so.sort_case = true
        · rw [if_pos h3, if_pos h3]
          exact strcmp_antisym _ _
        · rw [if_neg h3, if_neg h3]
          exact strcasecmp_antisym _ _
  simp only [entry_cmp]
  cases hdesc : so.sort_descending
  · simp only [Bool.false_eq_true, if_false]
    exact core
  · simp only [if_true]
    rw [core]
    ring

theorem lexLe_nil (b : List Char) : lexLe [] b = true := rfl

theorem lexLe_trans :
    ∀ a b c : List Char, lexLe a b = true → lexLe b c = true → lexLe a c = true
  | [], _, c, _, _ => lexLe_nil c
  | a :: as, [], _, h1, _ => by
      rw [lexLe] at h1
      exact absurd h1 (by simp)
  | a :: as, b :: bs, [], _, h2 => by
      rw [lexLe] at h2
      exact absurd h2 (by simp)
  | a :: as, b :: bs, c :: cs, h1, h2 => by
      rw [lexLe] at h1 h2 ⊢
      by_cases hab : a = b
      · subst hab
        rw [if_pos rfl] at h1
        by_cases hbc : a = c
        · subst hbc
          rw [if_pos rfl] at h2 ⊢
          exact lexLe_trans as bs cs h1 h2
        · rw [if_neg hbc] at h2 ⊢
          exact h2
      · rw [if_neg hab] at h1
        by_cases hbc : b = c
        · subst hbc
          rw [if_neg hab]
          exact h1
        · rw [if_neg hbc] at h2
          by_cases hac : a = c
          · exfalso
            simp only [decide_eq_true_eq] at h1 h2
            have : a.toNat = c.toNat := congrArg Char.toNat hac
            omega
          · rw [if_neg hac]
            simp only [decide_eq_true_eq] at h1 h2 ⊢
            omega

theorem strcmp_le_iff : ∀ a b : List Char, Char.ofNat 0 ∉ a →
    (strcmp a b ≤ 0 ↔ lexLe a b = true)
  | [], b, _ => by
      constructor
      · intro _
        exact lexLe_nil b
      · intro _
        cases b with
        | nil => simp [strcmp]
        | cons c cs =>
            rw [strcmp]
            omega
  | a :: as, [], hnul => by
      constructor
      · intro h
        exfalso
        rw [strcmp] at h
        have hz : a.toNat = 0 := by omega
        have ha0 : a = Char.ofNat 0 := char_toNat_inj (by rw [hz]; rfl)
        exact hnul (ha0 ▸ List.mem_cons_self a as)
      · intro h
        rw [lexLe] at h
        exact absurd h (by simp)
  | a :: as, b :: bs, hnul => by
      by_cases hab : a = b
      · subst hab
        rw [strcmp, if_pos rfl, lexLe, if_pos rfl]
        exact strcmp_le_iff as bs fun hm => hnul (List.mem_cons_of_mem _ hm)
      · rw [strcmp, if_neg hab, lexLe, if_neg hab]
        have hne : a.toNat ≠ b.toNat := fun hEq => hab (char_toNat_inj hEq)
        constructor
        · intro h
          simp only [decide_eq_true_eq]
          omega
        · intro h
          simp only [decide_eq_true_eq] at h
          omega

theorem mergesort_merge_perm (so : SortOpts) :
    ∀ l r : List DirEntry, List.Perm (_mergesort_merge l r so) (l ++ r)
  | [], r => by
      rw [_mergesort_merge]
      simp
  | a :: ls, [] => by
      rw [_mergesort_merge] <;> simp
  | a :: ls, b :: rs => by
      rw [_mergesort_merge]
      split_ifs with hc
      · exact List.Perm.cons a (mergesort_merge_perm so ls (b :: rs))
      · exact (List.Perm.cons b (mergesort_merge_perm so (a :: ls) rs)).trans
          List.perm_middle.symm
  termination_by l r => l.length + r.length

theorem mergesort_merge_chain (so : SortOpts) :
    ∀ l r : List DirEntry,
      (∀ a ∈ l ++ r, ∀ b ∈ l ++ r, entry_cmp so a b = -entry_cmp so b a) →
      List.Chain' (fun a b => entry_cmp so a b ≤ 0) l →
      List.Chain' (fun a b => entry_cmp so a b ≤ 0) r →
      List.Chain' (fun a b => entry_cmp so a b ≤ 0) (_mergesort_merge l r so) ∧
      (∀ x, (_mergesort_merge l r so).head? = some x →
        l.head? = some x ∨ r.head? = some x)
  | [], r => fun _ _ hr => by
      rw [_mergesort_merge]
      exact ⟨hr, fun x hx => Or.inr hx⟩
  | a :: ls, [] => fun _ hl _ => by
      rw [_mergesort_merge]
      · exact ⟨hl, fun x hx => Or.inl hx⟩
      · simp
  | a :: ls, b :: rs => fun hanti hl hr => by
      have hsub1 : ∀ x, x ∈ ls ++ b :: rs → x ∈ (a :: ls) ++ b :: rs := by
        intro x hx
        rw [List.mem_append] at hx ⊢
        rcases hx with h | h
        · exact Or.inl (List.mem_cons_of_mem a h)
        · exact Or.inr h
      have hsub2 : ∀ x, x ∈ (a :: ls) ++ rs → x ∈ (a :: ls) ++ b :: rs := by
        intro x hx
        rw [List.mem_append] at hx ⊢
        rcases hx with h | h
        · exact Or.inl h
        · exact Or.inr (List.mem_cons_of_mem b h)
      rw [_mergesort_merge]
      split_ifs with hc
      · obtain ⟨hch, hhd⟩ := mergesort_merge_chain so ls (b :: rs)
          (fun x hx y hy => hanti x (hsub1 x hx) y (hsub1 y hy))
          (List.chain'_cons'.mp hl).2 hr
        constructor
        · rw [List.chain'_cons']
          refine ⟨?_, hch⟩
          intro y hy
          rcases hhd y hy with h | h
          · exact (List.chain'_cons'.mp hl).1 y h
          · rw [List.head?_cons] at h
            rw [show y = b from (Option.some_inj.mp h).symm]
            omega
        · intro x hx
          left
          rw [List.head?_cons] at hx ⊢
          exact hx
      · obtain ⟨hch, hhd⟩ := mergesort_merge_chain so (a :: ls) rs
          (fun x hx y hy => hanti x (hsub2 x hx) y (hsub2 y hy))
          hl (List.chain'_cons'.mp hr).2
        constructor
        · rw [List.chain'_cons']
          refine ⟨?_, hch⟩
          intro y hy
          rcases hhd y hy with h | h
          · rw [List.head?_cons] at h
            rw [show y = a from (Option.some_inj.mp h).symm]
            have hab := hanti a (by simp) b (by simp)
            omega
          · exact (List.chain'_cons'.mp hr).1 y h
        · intro x hx
          right
          rw [List.head?_cons] at hx ⊢
          exact hx
  termination_by l r => l.length + r.length

theorem mergesort_perm (so : SortOpts) (l : List DirEntry) :
    List.Perm (_mergesort so l) l := by
  rw [_mergesort]
  split_ifs with h
  · exact List.Perm.refl l
  · refine (mergesort_merge_perm so _ _).trans ?_
    refine ((mergesort_perm so (l.take (ms_steps l + 1))).append
      (mergesort_perm so (l.drop (ms_steps l + 1)))).trans ?_
    rw [List.take_append_drop]
  termination_by l.length
  decreasing_by
    · have := ms_steps_lt l (by omega)
      simp only [List.length_take]
      omega
    · have := ms_steps_lt l (by omega)
      simp only [List.length_drop]
      omega

theorem mergesort_chain (so : SortOpts) (l : List DirEntry)
    (hanti : ∀ a ∈ l, ∀ b ∈ l, entry_cmp so a b = -entry_cmp so b a) :
    List.Chain' (fun a b => entry_cmp so a b ≤ 0) (_mergesort so l) := by
  rw [_mergesort]
  split_ifs with h
  · match l, h with
    | [], _ => exact List.chain'_nil
    | [a], _ => exact List.chain'_singleton a
  · refine (mergesort_merge_chain so _ _ ?_ ?_ ?_).1
    · intro x hx y hy
      rw [List.mem_append] at hx hy
      have hx2 : x ∈ l := by
        rcases hx with hx | hx
        · exact List.mem_of_mem_take
            ((mergesort_perm so (l.take (ms_steps l + 1))).mem_iff.mp hx)
        · exact List.mem_of_mem_drop
            ((mergesort_perm so (l.drop (ms_steps l + 1))).mem_iff.mp hx)
      have hy2 : y ∈ l := by
        rcases hy with hy | hy
        · exact List.mem_of_mem_take
            ((mergesort_perm so (l.take (ms_steps l + 1))).mem_iff.mp hy)
        · exact List.mem_of_mem_drop
            ((mergesort_perm so (l.drop (ms_steps l + 1))).mem_iff.mp hy)
      exact hanti x hx2 y hy2
    · exact mergesort_chain so (l.take (ms_steps l + 1))
        fun x hx y hy =>
          hanti x (List.mem_of_mem_take hx) y (List.mem_of_mem_take hy)
    · exact mergesort_chain so (l.drop (ms_steps l + 1))
        fun x hx y hy =>
          hanti x (List.mem_of_mem_drop hx) y (List.mem_of_mem_drop hy)
  termination_by l.length
  decreasing_by
    · have := ms_steps_lt l (by omega)
      simp only [List.length_take]
      omega
    · have := ms_steps_lt l (by omega)
      simp only [List.length_drop]
      omega

theorem chain'_imp_of_mem {R S : DirEntry → DirEntry → Prop} :
    ∀ l : List DirEntry, (∀ a ∈ l, ∀ b ∈ l, R a b → S a b) →
      List.Chain' R l → List.Chain' S l
  | [], _, _ => List.chain'_nil
  | [a], _, _ => List.chain'_singleton a
  | a :: b :: t, himp, hch => by
      rw [List.chain'_cons] at hch ⊢
      exact ⟨himp a (by simp) b (by simp) hch.1,
        chain'_imp_of_mem (b :: t)
          (fun x hx y hy =>
            himp x (List.mem_cons_of_mem a hx) y (List.mem_cons_of_mem a hy))
          hch.2⟩

theorem int_sub_le_zero_iff (x y : Nat) : ((x : Int) - y ≤ 0) ↔ x ≤ y := by
  omega

theorem int_sub_negmul_le_zero_iff (x y : Nat) : ((x : Int) - y) * (-1) ≤ 0 ↔ y ≤ x := by
  constructor <;> intro <;> omega

theorem spec_key_le_trans (so : SortOpts) (a b c : DirEntry)
    (h1 : spec_key_le so a b = true) (h2 : spec_key_le so b c = true) :
    spec_key_le so a c = true := by
  simp only [spec_key_le] at h1 h2 ⊢
  cases hdesc : so.sort_descending <;> cases hsz : so.sort_size <;>
    cases hmd : so.sort_modified <;> cases hcs : so.sort_case <;>
      simp only [hdesc, hsz, hmd, hcs, Bool.false_eq_true, Bool.true_eq_false, if_true,
        if_false, ite_true, ite_false, decide_eq_true_eq] at h1 h2 ⊢ <;>
      first
        | omega
        | exact lexLe_trans _ _ _ h1 h2
        | exact lexLe_trans _ _ _ h2 h1

theorem entry_cmp_le_iff (so : SortOpts) (a b : DirEntry)
    (hs : so.sort_size = true → a.size < 2 ^ 31 ∧ b.size < 2 ^ 31)
    (hm : so.sort_size = false → so.sort_modified = true →
      a.mtime < 2 ^ 31 ∧ b.mtime < 2 ^ 31)
    (hna : Char.ofNat 0 ∉ a.entrypath) (hnb : Char.ofNat 0 ∉ b.entrypath) :
    entry_cmp so a b ≤ 0 ↔ spec_key_le so a b = true := by
  simp only [entry_cmp, spec_key_le]
  cases hdesc : so.sort_descending <;> cases hsz : so.sort_size <;>
    cases hmd : so.sort_modified <;> cases hcs : so.sort_case <;>
      simp only [hdesc, hsz, hmd, hcs, Bool.false_eq_true, Bool.true_eq_false, if_true,
        if_false, ite_true, ite_false, decide_eq_true_eq] <;>
      first
        | (rw [u32_sub_as_int_eq a.size b.size (hs hsz).1 (hs hsz).2]
           exact int_sub_le_zero_iff _ _)
        | (rw [u32_sub_as_int_eq a.size b.size (hs hsz).1 (hs hsz).2]
           exact int_sub_negmul_le_zero_iff _ _)
        | (rw [u32_sub_as_int_eq a.mtime b.mtime (hm hsz hmd).1 (hm hsz hmd).2]
           exact int_sub_le_zero_iff _ _)
        | (rw [u32_sub_as_int_eq a.mtime b.mtime (hm hsz hmd).1 (hm hsz hmd).2]
           exact int_sub_negmul_le_zero_iff _ _)
        | exact strcmp_le_iff a.entrypath b.entrypath hna
        | (rw [show strcasecmp a.entrypath b.entrypath =
              strcmp (a.entrypath.map ctolower) (b.entrypath.map ctolower) from rfl]
           exact strcmp_le_iff _ _ (nul_free_map_ctolower hna))
        | (rw [strcmp_antisym a.entrypath b.entrypath]
           constructor
           · intro hx
             exact (strcmp_le_iff b.entrypath a.entrypath hnb).mp (by omega)
           · intro hx
             have h2 := (strcmp_le_iff b.entrypath a.entrypath hnb).mpr hx
             omega)
        | (rw [show strcasecmp a.entrypath b.entrypath =
              strcmp (a.entrypath.map ctolower) (b.entrypath.map ctolower) from rfl,
            strcmp_antisym (a.entrypath.map ctolower) (b.entrypath.map ctolower)]
           constructor
           · intro hx
             exact (strcmp_le_iff (b.entrypath.map ctolower) (a.entrypath.map ctolower)
               (nul_free_map_ctolower hnb)).mp (by omega)
           · intro hx
             have h2 := (strcmp_le_iff (b.entrypath.map ctolower) (a.entrypath.map ctolower)
               (nul_free_map_ctolower hnb)).mpr hx
             omega)

theorem filter_guard_cons_pos (d : DirOpts) (e : DirEntry) (l : List DirEntry)
    (h : (e.flags.directory && !d.no_foldersfirst) = true) :
    (e :: l).filter (fun x => x.flags.directory && !d.no_foldersfirst) =
      e :: l.filter (fun x => x.flags.directory && !d.no_foldersfirst) :=
  List.filter_cons_of_pos h

theorem filter_guard_cons_neg (d : DirOpts) (e : DirEntry) (l : List DirEntry)
    (h : (e.flags.directory && !d.no_foldersfirst) = false) :
    (e :: l).filter (fun x => x.flags.directory && !d.no_foldersfirst) =
      l.filter (fun x => x.flags.directory && !d.no_foldersfirst) :=
  List.filter_cons_of_neg (by simp [h])

theorem filter_nguard_cons_pos (d : DirOpts) (e : DirEntry) (l : List DirEntry)
    (h : (e.flags.directory && !d.no_foldersfirst) = false) :
    (e :: l).filter (fun x => !(x.flags.directory && !d.no_foldersfirst)) =
      e :: l.filter (fun x => !(x.flags.directory && !d.no_foldersfirst)) :=
  List.filter_cons_of_pos (by simp [h])

theorem filter_nguard_cons_neg (d : DirOpts) (e : DirEntry) (l : List DirEntry)
    (h : (e.flags.directory && !d.no_foldersfirst) = true) :
    (e :: l).filter (fun x => !(x.flags.directory && !d.no_foldersfirst)) =
      l.filter (fun x => !(x.flags.directory && !d.no_foldersfirst)) :=
  List.filter_cons_of_neg (by simp [h])

theorem filter_pass_cons_pos (d : DirOpts) (pattern : Option (List Char)) (e : DirEntry)
    (l : List DirEntry) (h : entry_passes d pattern e = true) :
    (e :: l).filter (entry_passes d pattern) = e :: l.filter (entry_passes d pattern) :=
  List.filter_cons_of_pos h

theorem filter_pass_cons_neg (d : DirOpts) (pattern : Option (List Char)) (e : DirEntry)
    (l : List DirEntry) (h : ¬ entry_passes d pattern e = true) :
    (e :: l).filter (entry_passes d pattern) = l.filter (entry_passes d pattern) :=
  List.filter_cons_of_neg h

theorem load_loop_nomax (d : DirOpts) (pattern : Option (List Char)) :
    ∀ (entries dirs files : List DirEntry) (cnt : Nat),
      load_loop d pattern 0 entries dirs files cnt =
        ((((entries.filter (entry_passes d pattern)).filter
              (fun e => e.flags.directory && !d.no_foldersfirst)).map load_entry_node).reverse
            ++ dirs,
          (((entries.filter (entry_passes d pattern)).filter
              (fun e => !(e.flags.directory && !d.no_foldersfirst))).map load_entry_node).reverse
            ++ files,
          cnt + (entries.filter (entry_passes d pattern)).length)
  | [], dirs, files, cnt => by simp [load_loop]
  | e :: rest, dirs, files, cnt => by
      rw [load_loop]
      by_cases hp : entry_passes d pattern e = true
      · rw [if_pos hp, if_neg (fun hcon => absurd hcon.1 (by omega))]
        rw [load_loop_nomax d pattern rest _ _ (cnt + 1)]
        rw [filter_pass_cons_pos d pattern e rest hp]
        by_cases hg : (e.flags.directory && !d.no_foldersfirst) = true
        · rw [if_pos hg, filter_guard_cons_pos d e _ hg, filter_nguard_cons_neg d e _ hg]
          simp [dirlist_push, hg, List.append_assoc]
          omega
        · have hg' := eq_false_of_ne_true hg
          rw [if_neg hg, filter_guard_cons_neg d e _ hg', filter_nguard_cons_pos d e _ hg']
          simp [dirlist_push, hg', List.append_assoc]
          omega
      · rw [if_neg hp, load_loop_nomax d pattern rest _ _ cnt,
          filter_pass_cons_neg d pattern e rest hp]

theorem load_loop_max (d : DirOpts) (pattern : Option (List Char)) (maxresults : Nat) :
    ∀ (entries dirs files : List DirEntry) (cnt : Nat), 0 < maxresults → cnt < maxresults →
      load_loop d pattern maxresults entries dirs files cnt =
        (((((entries.filter (entry_passes d pattern)).take (maxresults - cnt)).filter
              (fun e => e.flags.directory && !d.no_foldersfirst)).map load_entry_node).reverse
            ++ dirs,
          ((((entries.filter (entry_passes d pattern)).take (maxresults - cnt)).filter
              (fun e => !(e.flags.directory && !d.no_foldersfirst))).map load_entry_node).reverse
            ++ files,
          cnt + ((entries.filter (entry_passes d pattern)).take (maxresults - cnt)).length)
  | [], dirs, files, cnt, _, _ => by simp [load_loop]
  | e :: rest, dirs, files, cnt, hpos, hcnt => by
      rw [load_loop]
      by_cases hp : entry_passes d pattern e = true
      · rw [if_pos hp, filter_pass_cons_pos d pattern e rest hp]
        have hsub : maxresults - cnt = (maxresults - (cnt + 1)) + 1 := by omega
        rw [hsub, List.take_succ_cons]
        by_cases hstop : maxresults > 0 ∧ maxresults ≤ cnt + 1
        · rw [if_pos hstop]
          have hz : maxresults - (cnt + 1) = 0 := by omega
          rw [hz, List.take_zero]
          by_cases hg : (e.flags.directory && !d.no_foldersfirst) = true
          · rw [filter_guard_cons_pos d e _ hg, filter_nguard_cons_neg d e _ hg, if_pos hg]
            simp [dirlist_push, hg]
          · have hg' := eq_false_of_ne_true hg
            rw [filter_guard_cons_neg d e _ hg', filter_nguard_cons_pos d e _ hg', if_neg hg]
            simp [dirlist_push, hg']
        · rw [if_neg hstop]
          have hcnt1 : cnt + 1 < maxresults := by omega
          rw [load_loop_max d pattern maxresults rest _ _ (cnt + 1) hpos hcnt1]
          by_cases hg : (e.flags.directory && !d.no_foldersfirst) = true
          · rw [if_pos hg, filter_guard_cons_pos d e _ hg, filter_nguard_cons_neg d e _ hg]
            simp [dirlist_push, hg, List.append_assoc]
            omega
          · have hg' := eq_false_of_ne_true hg
            rw [if_neg hg, filter_guard_cons_neg d e _ hg', filter_nguard_cons_pos d e _ hg']
            simp [dirlist_push, hg', List.append_assoc]
            omega
      · rw [if_neg hp, load_loop_max d pattern maxresults rest _ _ cnt hpos hcnt,
          filter_pass_cons_neg d pattern e rest hp]

theorem mergesort_nil (so : SortOpts) : _mergesort so [] = [] := by
  rw [_mergesort]
  rfl

theorem mergesort_singleton (so : SortOpts) (a : DirEntry) : _mergesort so [a] = [a] := by
  rw [_mergesort]
  rfl

theorem mergesort_pair (so : SortOpts) (a b : DirEntry) :
    _mergesort so [a, b] = if entry_cmp so a b < 0 then [a, b] else [b, a] := by
  rw [_mergesort, dif_neg (by simp)]
  show _mergesort_merge (_mergesort so [a]) (_mergesort so [b]) so = _
  rw [mergesort_singleton, mergesort_singleton, _mergesort_merge]
  split_ifs with h
  · rw [_mergesort_merge]
  · rw [_mergesort_merge] <;> simp

theorem mem_nodes {acc : List DirEntry} {p : DirEntry → Bool} {x : DirEntry}
    (hx : x ∈ ((acc.filter p).map load_entry_node).reverse) :
    ∃ e ∈ acc, x = load_entry_node e := by
  rw [List.mem_reverse] at hx
  obtain ⟨e, he, hx'⟩ := List.mem_map.mp hx
  exact ⟨e, (List.mem_filter.mp he).1, hx'.symm⟩

theorem mergesort_pairwise_spec (so : SortOpts) (l : List DirEntry)
    (hsize : so.sort_size = true → ∀ e ∈ l, e.size < 2 ^ 31)
    (hmtime : so.sort_size = false → so.sort_modified = true → ∀ e ∈ l, e.mtime < 2 ^ 31)
    (hnul : ∀ e ∈ l, Char.ofNat 0 ∉ e.entrypath) :
    List.Pairwise (fun a b => spec_key_le so a b = true) (_mergesort so l) := by
  have hanti : ∀ a ∈ l, ∀ b ∈ l, entry_cmp so a b = -entry_cmp so b a := by
    intro a ha b hb
    exact entry_cmp_antisym so a b
      (fun hs => ⟨hsize hs a ha, hsize hs b hb⟩)
      (fun hs hm => ⟨hmtime hs hm a ha, hmtime hs hm b hb⟩)
  have hch := mergesort_chain so l hanti
  have hch2 : List.Chain' (fun a b => spec_key_le so a b = true) (_mergesort so l) := by
    refine chain'_imp_of_mem _ ?_ hch
    intro a ha b hb hR
    have ha' := (mergesort_perm so l).mem_iff.mp ha
    have hb' := (mergesort_perm so l).mem_iff.mp hb
    exact (entry_cmp_le_iff so a b
      (fun hs => ⟨hsize hs a ha', hsize hs b hb'⟩)
      (fun hs hm => ⟨hmtime hs hm a ha', hmtime hs hm b hb'⟩)
      (hnul a ha') (hnul b hb')).mp hR
  letI : IsTrans DirEntry (fun a b => spec_key_le so a b = true) :=
    ⟨fun a b c h1 h2 => spec_key_le_trans so a b c h1 h2⟩
  exact List.chain'_iff_pairwise.mp hch2

theorem load_directory_eq (entries : List DirEntry) (d : DirOpts) (so : SortOpts)
    (mr : Nat) (pattern : Option (List Char)) (ld lf : List DirEntry) (cnt : Nat)
    (h : load_loop d pattern mr entries [] [] 0 = (ld, lf, cnt))
    (hnone : so.sort_none = false) :
    _load_directory entries d so mr pattern =
      (dirlist_concat (dirlist_sort so ld) (dirlist_sort so lf), cnt) := by
  simp [_load_directory, h, hnone]

theorem load_directory_sorted_core (entries acc : List DirEntry) (d : DirOpts)
    (so : SortOpts) (mr : Nat) (pattern : Option (List Char))
    (hnone : so.sort_none = false)
    (hacc : load_loop d pattern mr entries [] [] 0 =
      (((acc.filter (fun e => e.flags.directory && !d.no_foldersfirst)).map
          load_entry_node).reverse,
       ((acc.filter (fun e => !(e.flags.directory && !d.no_foldersfirst))).map
          load_entry_node).reverse,
       acc.length))
    (hsize : so.sort_size = true → ∀ e ∈ acc, e.size < 2 ^ 31)
    (hmtime : so.sort_size = false → so.sort_modified = true → ∀ e ∈ acc, e.mtime < 2 ^ 31)
    (hnul : ∀ e ∈ acc, Char.ofNat 0 ∉ e.entrypath) :
    ∃ D F : List DirEntry,
      (_load_directory entries d so mr pattern).1 = D ++ F ∧
      List.Perm D ((acc.filter
          (fun e => e.flags.directory && !d.no_foldersfirst)).map load_entry_node) ∧
      List.Perm F ((acc.filter
          (fun e => !(e.flags.directory && !d.no_foldersfirst))).map load_entry_node) ∧
      List.Pairwise (fun a b => spec_key_le so a b = true) D ∧
      List.Pairwise (fun a b => spec_key_le so a b = true) F ∧
      (_load_directory entries d so mr pattern).2 = acc.length := by
  have heq := load_directory_eq entries d so mr pattern _ _ _ hacc hnone
  have hfacts : ∀ (p : DirEntry → Bool),
      (so.sort_size = true →
        ∀ x ∈ ((acc.filter p).map load_entry_node).reverse, x.size < 2 ^ 31) ∧
      (so.sort_size = false → so.sort_modified = true →
        ∀ x ∈ ((acc.filter p).map load_entry_node).reverse, x.mtime < 2 ^ 31) ∧
      (∀ x ∈ ((acc.filter p).map load_entry_node).reverse,
        Char.ofNat 0 ∉ x.entrypath) := by
    intro p
    refine ⟨?_, ?_, ?_⟩
    · intro hs x hx
      obtain ⟨e, he, hxe⟩ := mem_nodes hx
      rw [hxe]
      exact hsize hs e he
    · intro hs hm x hx
      obtain ⟨e, he, hxe⟩ := mem_nodes hx
      rw [hxe]
      exact hmtime hs hm e he
    · intro x hx
      obtain ⟨e, he, hxe⟩ := mem_nodes hx
      rw [hxe]
      intro hc
      exact hnul e he (List.mem_of_mem_take hc)
  refine ⟨_mergesort so (((acc.filter
      (fun e => e.flags.directory && !d.no_foldersfirst)).map load_entry_node).reverse),
    _mergesort so (((acc.filter
      (fun e => !(e.flags.directory && !d.no_foldersfirst))).map load_entry_node).reverse),
    ?_, ?_, ?_, ?_, ?_, ?_⟩
  · rw [heq]
    rfl
  · exact (mergesort_perm so _).trans (List.reverse_perm _)
  · exact (mergesort_perm so _).trans (List.reverse_perm _)
  · obtain ⟨h1, h2, h3⟩ := hfacts (fun e => e.flags.directory && !d.no_foldersfirst)
    exact mergesort_pairwise_spec so _ h1 h2 h3
  · obtain ⟨h1, h2, h3⟩ := hfacts (fun e => !(e.flags.directory && !d.no_foldersfirst))
    exact mergesort_pairwise_spec so _ h1 h2 h3
  · rw [heq]

/-- C5 as stated is false: the merge comparator computes the size (and
mtime) key as a `uint32_t` subtraction stored into an `int`, so a pair of
sizes 0 and 2^31 wraps to a negative difference and SIZE-sort emits the
larger file first.  Here `_load_directory` on two files of sizes 0 and
2^31, with SIZE sort ascending selected, returns the 2^31-byte file
before the 0-byte one, while the claim's ascending-by-size order requires
the opposite (the adjacent pair violates the sort key). -/
theorem claim_C5_counterexample :
    (_load_directory [entry_size_zero, entry_size_big] diropts_none sort_by_size 0 none).1 =
      [entry_size_big, entry_size_zero] ∧
    sort_by_size.sort_none = false ∧ sort_by_size.sort_size = true ∧
    sort_by_size.sort_descending = false ∧
    spec_key_le sort_by_size entry_size_big entry_size_zero = false := by
  refine ⟨?_, rfl, rfl, rfl, by decide⟩
  have h1 : _load_directory [entry_size_zero, entry_size_big] diropts_none sort_by_size
      0 none =
      (dirlist_concat (dirlist_sort sort_by_size [])
        (dirlist_sort sort_by_size [entry_size_big, entry_size_zero]), 2) := rfl
  rw [h1]
  show dirlist_concat (dirlist_sort sort_by_size [])
      (dirlist_sort sort_by_size [entry_size_big, entry_size_zero]) = _
  simp only [dirlist_sort, dirlist_concat]
  rw [mergesort_nil, mergesort_pair, if_pos (by decide)]
  rfl

/-- C5 amended: provided some sort is selected (NONE clear), every size is
below 2^31 when SIZE sorting and every mtime is below 2^31 when MODIFIED
sorting (so the 32-bit wrapping comparator is faithful), and entry names
are NUL-free, `_load_directory` returns the accepted entries — those
passing the filters and pattern, truncated to `maxresults` when non-zero —
as the group of directory nodes (unless NO_FOLDERSFIRST) followed by the
group of file nodes, each group a permutation of its accepted entries
sorted (pairwise) by the key selected by `sortopt`, and reports their
count. -/
theorem claim_C5_load_directory_amended
    (entries : List DirEntry) (d : DirOpts) (so : SortOpts) (maxresults : Nat)
    (pattern : Option (List Char))
    (hnone : so.sort_none = false)
    (hsize : so.sort_size = true → ∀ e ∈ entries, e.size < 2 ^ 31)
    (hmtime : so.sort_size = false → so.sort_modified = true →
      ∀ e ∈ entries, e.mtime < 2 ^ 31)
    (hnul : ∀ e ∈ entries, Char.ofNat 0 ∉ e.entrypath) :
    ∃ D F : List DirEntry,
      (_load_directory entries d so maxresults pattern).1 = D ++ F ∧
      List.Perm D ((((entries.filter (entry_passes d pattern)).take
          (if maxresults = 0 then entries.length else maxresults)).filter
          (fun e => e.flags.directory && !d.no_foldersfirst)).map load_entry_node) ∧
      List.Perm F ((((entries.filter (entry_passes d pattern)).take
          (if maxresults = 0 then entries.length else maxresults)).filter
          (fun e => !(e.flags.directory && !d.no_foldersfirst))).map load_entry_node) ∧
      List.Pairwise (fun a b => spec_key_le so a b = true) D ∧
      List.Pairwise (fun a b => spec_key_le so a b = true) F ∧
      (_load_directory entries d so maxresults pattern).2 =
        ((entries.filter (entry_passes d pattern)).take
          (if maxresults = 0 then entries.length else maxresults)).length := by
  have hacc_sub : ∀ e ∈ (entries.filter (entry_passes d pattern)).take
      (if maxresults = 0 then entries.length else maxresults), e ∈ entries := by
    intro e he
    exact (List.mem_filter.mp (List.mem_of_mem_take he)).1
  have hload : load_loop d pattern maxresults entries [] [] 0 =
      ((((((entries.filter (entry_passes d pattern)).take
            (if maxresults = 0 then entries.length else maxresults)).filter
          (fun e => e.flags.directory && !d.no_foldersfirst)).map
          load_entry_node).reverse,
       (((((entries.filter (entry_passes d pattern)).take
            (if maxresults = 0 then entries.length else maxresults)).filter
          (fun e => !(e.flags.directory && !d.no_foldersfirst))).map
          load_entry_node).reverse,
       ((entries.filter (entry_passes d pattern)).take
          (if maxresults = 0 then entries.length else maxresults)).length))) := by
    rcases Nat.eq_zero_or_pos maxresults with hmr | hmr
    · subst hmr
      rw [load_loop_nomax d pattern entries [] [] 0,
        show (if (0 : Nat) = 0 then entries.length else 0) = entries.length from rfl,
        List.take_of_length_le (List.length_filter_le _ _)]
      simp
    · rw [load_loop_max d pattern maxresults entries [] [] 0 hmr hmr,
        if_neg (by omega)]
      simp
  exact load_directory_sorted_core entries _ d so maxresults pattern hnone hload
    (fun hs e he => hsize hs e (hacc_sub e he))
    (fun hs hm e he => hmtime hs hm e (hacc_sub e he))
    (fun e he => hnul e (hacc_sub e he))

/-- Witness for C5 at a concrete input: one zero-size file under the
default (case-insensitive name, ascending) sort, no cap, no pattern. -/
theorem claim_C5_witness :
    ∃ D F : List DirEntry,
      (_load_directory [entry_size_zero] diropts_none sort_default 0 none).1 = D ++ F ∧
      List.Perm D (((([entry_size_zero].filter
            (entry_passes diropts_none none)).take
          (if (0 : Nat) = 0 then [entry_size_zero].length else 0)).filter
          (fun e => e.flags.directory && !diropts_none.no_foldersfirst)).map
          load_entry_node) ∧
      List.Perm F (((([entry_size_zero].filter
            (entry_passes diropts_none none)).take
          (if (0 : Nat) = 0 then [entry_size_zero].length else 0)).filter
          (fun e => !(e.flags.directory && !diropts_none.no_foldersfirst))).map
          load_entry_node) ∧
      List.Pairwise (fun a b => spec_key_le sort_default a b = true) D ∧
      List.Pairwise (fun a b => spec_key_le sort_default a b = true) F ∧
      (_load_directory [entry_size_zero] diropts_none sort_default 0 none).2 =
        (([entry_size_zero].filter (entry_passes diropts_none none)).take
          (if (0 : Nat) = 0 then [entry_size_zero].length else 0)).length :=
  claim_C5_load_directory_amended [entry_size_zero] diropts_none sort_default 0 none
    rfl (by decide) (by decide) (by decide)

end Tnfsd
